import Mathlib

/-!
# CorrelationVector

A shallow embedding of `CorrelationVector/src/CorrelationVector.cpp` (with the constants of
`CorrelationVector/include/CorrelationVector.h`) and theorems about it.

Conventions of the embedding.

* A `std::string` is a `List Char`; `length()`, `substr`, `+` are `List.length`, `List.drop` /
  `List.take`, `++`.
* The extension counter is the C++ `int` stored in `std::atomic<int>`; it is an `Int` here and the
  theorems state the range `0 ≤ extension ≤ INT_MAX` where they need it.
* String lengths and indices are natural numbers.  The source keeps two of them in an `int`
  (`size` in `increment`, `p` in `parse`); the embedding keeps them exact, which is what the source
  computes for every string shorter than `2^31` characters.
* The process-wide flag `ValidateCorrelationVectorDuringCreation` is an explicit `Bool` argument.
* `InternalErrors::reportError` is a diagnostic sink: every function that may call it returns the
  list of messages it reported, in order.
* `Guid::newGuid()`, `std::rand()` and `std::chrono::system_clock::now()` read the environment;
  what they return is an explicit argument.
* `increment` is embedded for one caller at a time: `compare_exchange_weak` finds the snapshot it
  loaded unless it fails spuriously (`incrementRetry`).  For several callers of one vector,
  `SharedVector.step` is one atomic operation of one thread and a schedule picks the interleaving.
-/

namespace Microsoft

/-! ## Constants and the data model (`CorrelationVector.h`) -/

/-- The enumeration `CorrelationVectorVersion` of the header. -/
inductive CorrelationVectorVersion where
  | V1
  | V2
deriving DecidableEq, Repr

/-- Header constant `MAX_VECTOR_LENGTH`. -/
def MAX_VECTOR_LENGTH : Nat := 63

/-- Header constant `MAX_VECTOR_LENGTH_V2`. -/
def MAX_VECTOR_LENGTH_V2 : Nat := 127

/-- Header constant `BASE_LENGTH`. -/
def BASE_LENGTH : Nat := 16

/-- Header constant `BASE_LENGTH_V2`. -/
def BASE_LENGTH_V2 : Nat := 22

/-- The largest value of a C++ `int` (32 bits). -/
def INT_MAX : Int := 2147483647

/-- The smallest value of a C++ `int` (32 bits). -/
def INT_MIN : Int := -2147483648

/-- The fields of the class `CorrelationVector`: `baseVector`, `extension` (the value held by the
atomic counter) and `correlationVectorVersion`. -/
structure CorrelationVector where
  baseVector : List Char
  extension : Int
  correlationVectorVersion : CorrelationVectorVersion
deriving DecidableEq, Repr

/-! ## The C++ standard library functions the source calls -/

/-- The character of a decimal digit `d < 10`. -/
def digitChar (d : Nat) : Char := Char.ofNat (48 + d)

/-- The decimal digits of `n`, least significant first, computed with at most `fuel` divisions. -/
def digitsLE : Nat → Nat → List Nat
  | 0, _ => []
  | fuel + 1, n => if n = 0 then [] else (n % 10) :: digitsLE fuel (n / 10)

/-- The text `std::to_string` produces for an unsigned value: decimal, no sign, no padding. -/
def decimal (n : Nat) : List Char :=
  if n = 0 then [digitChar 0] else ((digitsLE n n).reverse).map digitChar

/-- The function `std::to_string(int)`. -/
def to_string (i : Int) : List Char :=
  if i < 0 then '-' :: decimal i.natAbs else decimal i.toNat

/-- The C function `isspace` in the "C" locale: space, and the controls `\t \n \v \f \r`. -/
def isspace (c : Char) : Bool := c.toNat = 32 || (9 ≤ c.toNat && c.toNat ≤ 13)

/-- The C function `isdigit`. -/
def isdigit (c : Char) : Bool := 48 ≤ c.toNat && c.toNat ≤ 57

/-- The outcome of `std::stoi(str, &lastChar, 10)`: the converted value together with the number of
characters consumed, or one of the two exceptions it throws. -/
inductive StoiResult where
  | value (result : Int) (lastChar : Nat)
  | invalid_argument
  | out_of_range
deriving DecidableEq, Repr

/-- The number spelled by a run of decimal digit characters. -/
def digitsValue (ds : List Char) : Nat :=
  ds.foldl (fun acc c => 10 * acc + (c.toNat - 48)) 0

/-- The function `std::stoi(str, &lastChar, 10)`, that is `strtol` with base 10: skip leading
white space, take one optional sign `+` or `-`, then the longest run of decimal digits.  No digit:
`invalid_argument`.  A value that does not fit an `int`: `out_of_range`. -/
def stoi (str : List Char) : StoiResult :=
  let body := str.dropWhile isspace
  let skipped := str.length - body.length
  let negative : Bool := body.head? = some '-'
  let signLength : Nat := if body.head? = some '-' ∨ body.head? = some '+' then 1 else 0
  let digits := (body.drop signLength).takeWhile isdigit
  if digits = [] then StoiResult.invalid_argument
  else
    let magnitude : Int := (digitsValue digits : Nat)
    let result : Int := if negative then -magnitude else magnitude
    if result < INT_MIN ∨ INT_MAX < result then StoiResult.out_of_range
    else StoiResult.value result (skipped + signLength + digits.length)

/-- The method `std::string::find_first_of(char)`; `none` stands for `npos`. -/
def find_first_of : List Char → Char → Option Nat
  | [], _ => none
  | x :: xs, c => if x = c then some 0 else (find_first_of xs c).map (· + 1)

/-- The method `std::string::find_last_of(char)`; `none` stands for `npos`. -/
def find_last_of : List Char → Char → Option Nat
  | [], _ => none
  | x :: xs, c =>
    match find_last_of xs c with
    | some i => some (i + 1)
    | none => if x = c then some 0 else none

/-- The value of `(int)std::log10(next)` for `next ≥ 1`, with at most `fuel` divisions. -/
def log10Fuel : Nat → Nat → Nat
  | 0, _ => 0
  | fuel + 1, n => if n < 10 then 0 else log10Fuel fuel (n / 10) + 1

/-- The expression `(int)std::log10(next)` of `increment`.  The source is undefined for
`next ≤ 0`, which no vector with a non-negative extension reaches. -/
def log10 (next : Int) : Nat := log10Fuel next.toNat next.toNat

/-! ## Collaborators that are not part of `CorrelationVector.cpp` -/

/-- Modelled from the spec: `split_str` of `Utilities.h`, "splitting on `.`": the pieces of `str`
between consecutive occurrences of `delimiter`, in order. -/
def split_str : List Char → Char → List (List Char)
  | [], _ => [[]]
  | c :: cs, delimiter =>
    if c = delimiter then [] :: split_str cs delimiter
    else
      match split_str cs delimiter with
      | [] => [[c]]
      | part :: parts => (c :: part) :: parts

/-- Modelled from the spec: the unique-identifier collaborator `Guid` of `Guid.h`, as far as the
vector uses it: `toBase64String(optionalByteCount)`. -/
structure Guid where
  toBase64String : Option Nat → List Char

/-- Modelled from the spec: the spin configuration `SpinParameters` of `SpinParameters.h`, the
three read-only values `entropyBytes`, `ticksBitsToDrop` and `totalBits`. -/
structure SpinParameters where
  entropyBytes : Nat
  ticksBitsToDrop : Nat
  totalBits : Nat
deriving DecidableEq, Repr

/-! ## `CorrelationVector.cpp` -/

/-- The macro `isEmptyOrWhiteSpace(str)`:
`str.empty() || str.find_first_not_of(' ') == str.npos`. -/
def isEmptyOrWhiteSpace (str : List Char) : Bool :=
  str.isEmpty || str.all (fun c => c = ' ')

/-- The function `CorrelationVector::getBaseFromGuid`. -/
def getBaseFromGuid (guid : Guid) : List Char :=
  (guid.toBase64String none).take BASE_LENGTH_V2

/-- The function `CorrelationVector::getUniqueValue`; `guid` is what `Guid::newGuid()` returns. -/
def getUniqueValue (guid : Guid) (version : CorrelationVectorVersion) : List Char :=
  match version with
  | CorrelationVectorVersion.V1 => guid.toBase64String (some 12)
  | CorrelationVectorVersion.V2 => guid.toBase64String none

/-- The constructor `CorrelationVector(CorrelationVectorVersion version)`. -/
def CorrelationVector.ofVersion (guid : Guid) (version : CorrelationVectorVersion) :
    CorrelationVector :=
  ⟨getUniqueValue guid version, 0, version⟩

/-- The default constructor `CorrelationVector()`. -/
def CorrelationVector.new (guid : Guid) : CorrelationVector :=
  CorrelationVector.ofVersion guid CorrelationVectorVersion.V1

/-- The constructor `CorrelationVector(Microsoft::Guid guid)`. -/
def CorrelationVector.ofGuid (guid : Guid) : CorrelationVector :=
  ⟨getBaseFromGuid guid, 0, CorrelationVectorVersion.V2⟩

/-- The function `CorrelationVector::inferVersion`: the version, and what it reported. -/
def inferVersion (correlationVector : List Char) (reportErrors : Bool) :
    CorrelationVectorVersion × List (List Char) :=
  let index : Option Nat :=
    if correlationVector.isEmpty then none else find_first_of correlationVector '.'
  if index = some BASE_LENGTH then (CorrelationVectorVersion.V1, [])
  else if index = some BASE_LENGTH_V2 then (CorrelationVectorVersion.V2, [])
  else
    (CorrelationVectorVersion.V1,
      if reportErrors then [String.toList "Invalid correlation vector " ++ correlationVector]
      else [])

/-- The message of the exception thrown for an extension that is not accepted. -/
def invalidExtensionMessage (correlationVector part : List Char) : List Char :=
  String.toList "Invalid correlation vector " ++ correlationVector
    ++ String.toList ". Invalid extension value " ++ part

/-- The loop `for (size_t i = 1; i < length; ++i)` of `validate` over `parts[1..]`: the first part
that `std::stoi` does not convert entirely, or converts to a negative value, throws. -/
def validateExtensions (correlationVector : List Char) :
    List (List Char) → Except (List Char) Unit
  | [] => Except.ok ()
  | part :: rest =>
    match stoi part with
    | StoiResult.value result lastChar =>
      if lastChar ≠ part.length ∨ result < 0 then
        Except.error (invalidExtensionMessage correlationVector part)
      else validateExtensions correlationVector rest
    | StoiResult.invalid_argument =>
      Except.error (invalidExtensionMessage correlationVector part)
    | StoiResult.out_of_range =>
      Except.error (invalidExtensionMessage correlationVector part)

/-- The local variable `maxVectorLength` of `validate`, as assigned from the version. -/
def maxVectorLength (version : CorrelationVectorVersion) : Nat :=
  match version with
  | CorrelationVectorVersion.V1 => MAX_VECTOR_LENGTH
  | CorrelationVectorVersion.V2 => MAX_VECTOR_LENGTH_V2

/-- The local variable `baseLength` of `validate`, as assigned from the version. -/
def baseLength (version : CorrelationVectorVersion) : Nat :=
  match version with
  | CorrelationVectorVersion.V1 => BASE_LENGTH
  | CorrelationVectorVersion.V2 => BASE_LENGTH_V2

/-- The body of the outer `try` block of `validate`: `Except.error m` is
`throw std::invalid_argument(m)`. -/
def validateBody (correlationVector : List Char) (version : CorrelationVectorVersion) :
    Except (List Char) Unit :=
  if isEmptyOrWhiteSpace correlationVector ∨
      correlationVector.length > maxVectorLength version then
    Except.error (String.toList "The " ++ correlationVector
      ++ String.toList " correlation vector can not be null or bigger than "
      ++ decimal (maxVectorLength version) ++ String.toList " characters")
  else
    let parts := split_str correlationVector '.'
    if parts.length < 2 ∨ (parts.headD []).length ≠ baseLength version then
      Except.error (String.toList "Invalid correlation vector " ++ correlationVector
        ++ String.toList ". Invalid base value " ++ parts.headD [])
    else validateExtensions correlationVector parts.tail

/-- The function `CorrelationVector::validate`: the messages it passes to
`InternalErrors::reportError` (none when the vector is accepted). -/
def validate (correlationVector : List Char) (version : CorrelationVectorVersion) :
    List (List Char) :=
  match validateBody correlationVector version with
  | Except.ok _ => []
  | Except.error message => [message]

/-- The function `CorrelationVector::extend`: the new vector, and what was reported. -/
def extend (validateDuringCreation : Bool) (correlationVector : List Char) :
    CorrelationVector × List (List Char) :=
  let inferred := inferVersion correlationVector validateDuringCreation
  let reports :=
    if validateDuringCreation then validate correlationVector inferred.1 else []
  (⟨correlationVector, 0, inferred.1⟩, inferred.2 ++ reports)

/-- The 64-bit pattern of a `long long`. -/
def toUInt64 (i : Int) : Nat := (i % 18446744073709551616).toNat

/-- The text `s` that `spin` appends: `ticks` is the clock reading and `rand i` the result of the
`i`-th call of `std::rand()`.  `value` is kept as its 64-bit pattern. -/
def spinSegment (ticks : Int) (rand : Nat → Nat) (parameters : SpinParameters) : List Char :=
  let entropy : List Nat :=
    (List.range parameters.entropyBytes).map (fun i => rand i % 256)
  let shifted : Nat := toUInt64 (ticks / 2 ^ parameters.ticksBitsToDrop)
  let folded : Nat :=
    entropy.foldl (fun value byte => (value * 256 % 18446744073709551616) ||| byte) shifted
  let totalBits := parameters.totalBits
  let mask : Nat :=
    ((if totalBits = 64 then 0 else 2 ^ totalBits % 18446744073709551616)
      + 18446744073709551615) % 18446744073709551616
  let value : Nat := folded &&& mask
  let s := decimal (value % 4294967296)
  if totalBits > 32 then decimal (value / 4294967296 % 4294967296) ++ '.' :: s else s

/-- The function `CorrelationVector::spin(correlationVector, parameters)`: the new vector, and what
was reported. -/
def spin (validateDuringCreation : Bool) (ticks : Int) (rand : Nat → Nat)
    (correlationVector : List Char) (parameters : SpinParameters) :
    CorrelationVector × List (List Char) :=
  let inferred := inferVersion correlationVector validateDuringCreation
  let reports :=
    if validateDuringCreation then validate correlationVector inferred.1 else []
  (⟨correlationVector ++ '.' :: spinSegment ticks rand parameters, 0, inferred.1⟩,
    inferred.2 ++ reports)

/-- The function `CorrelationVector::parse`; `guid` is what `Guid::newGuid()` returns if the
default constructor runs. -/
def parse (guid : Guid) (correlationVector : List Char) : CorrelationVector :=
  if correlationVector.isEmpty then CorrelationVector.new guid
  else
    let p : Int :=
      match find_last_of correlationVector '.' with
      | some i => (i : Int)
      | none => -1
    if p > 0 then
      let lastStage := correlationVector.drop (p + 1).toNat
      match stoi lastStage with
      | StoiResult.value extension lastChar =>
        if lastChar = lastStage.length ∧ extension ≥ 0 then
          ⟨correlationVector.take p.toNat, extension, (inferVersion correlationVector false).1⟩
        else CorrelationVector.new guid
      | StoiResult.invalid_argument => CorrelationVector.new guid
      | StoiResult.out_of_range => CorrelationVector.new guid
    else CorrelationVector.new guid

/-- The method `CorrelationVector::getValue`. -/
def CorrelationVector.getValue (cv : CorrelationVector) : List Char :=
  cv.baseVector ++ '.' :: to_string cv.extension

/-- The method `CorrelationVector::getVersion`. -/
def CorrelationVector.getVersion (cv : CorrelationVector) : CorrelationVectorVersion :=
  cv.correlationVectorVersion

/-- The method `CorrelationVector::toString`. -/
def CorrelationVector.toString (cv : CorrelationVector) : List Char := cv.getValue

/-- The method `CorrelationVector::equals`. -/
def CorrelationVector.equals (cv vector : CorrelationVector) : Bool :=
  cv.baseVector = vector.baseVector && cv.extension = vector.extension

/-- The variable `size` of `increment`: `baseVector.length() + 1 + (int)std::log10(next) + 1`. -/
def CorrelationVector.sizeWith (cv : CorrelationVector) (next : Int) : Nat :=
  cv.baseVector.length + 1 + log10 next + 1

/-- One pass through the body of the `do` loop of `increment` up to the compare-and-swap:
`none` when one of the two `return this->getValue()` statements runs, `some next` when the loop
reaches `compare_exchange_weak(snapshot, next)`. -/
def CorrelationVector.incrementCandidate (cv : CorrelationVector) : Option Int :=
  let snapshot := cv.extension
  if snapshot = INT_MAX then none
  else
    let next := snapshot + 1
    let size := cv.sizeWith next
    if (cv.getVersion = CorrelationVectorVersion.V1 ∧ size > MAX_VECTOR_LENGTH) ∨
        (cv.getVersion = CorrelationVectorVersion.V2 ∧ size > MAX_VECTOR_LENGTH_V2) then none
    else some next

/-- The method `CorrelationVector::increment` when `compare_exchange_weak` fails spuriously
`failures` times before it succeeds: the returned string and the vector afterwards. -/
def CorrelationVector.incrementRetry (cv : CorrelationVector) :
    Nat → List Char × CorrelationVector
  | 0 =>
    match cv.incrementCandidate with
    | none => (cv.getValue, cv)
    | some next => (cv.baseVector ++ '.' :: to_string next, { cv with extension := next })
  | failures + 1 =>
    match cv.incrementCandidate with
    | none => (cv.getValue, cv)
    | some _ => cv.incrementRetry failures

/-- The method `CorrelationVector::increment` called by one thread, the compare-and-swap
succeeding at once: the returned string and the vector afterwards. -/
def CorrelationVector.increment (cv : CorrelationVector) : List Char × CorrelationVector :=
  cv.incrementRetry 0

/-- The strings returned by `n` sequential calls of `increment`, in order, and the vector after
the last call. -/
def CorrelationVector.incrementMany (cv : CorrelationVector) :
    Nat → List (List Char) × CorrelationVector
  | 0 => ([], cv)
  | n + 1 =>
    let first := cv.increment
    let others := first.2.incrementMany n
    (first.1 :: others.1, others.2)

/-! ## Vocabulary of the statements -/

/-- The number of characters of the decimal text of `n`: the `digitCount` of the documentation. -/
def digitCount (n : Int) : Nat := (to_string n).length

/-- The text of `part` after its leading white space and one optional sign `+` or `-`. -/
def unsignedText (part : List Char) : List Char :=
  let body := part.dropWhile isspace
  body.drop (if body.head? = some '-' ∨ body.head? = some '+' then 1 else 0)

/-- Whether the first character of `part` after its leading white space is `-`. -/
def hasMinus (part : List Char) : Bool :=
  (part.dropWhile isspace).head? = some '-'

/-- The text of a chain of extensions: `.e1.e2.….ek`, each in decimal. -/
def dotted : List Int → List Char
  | [] => []
  | e :: es => '.' :: (to_string e ++ dotted es)

/-- The vectors the constructors, `parse` and `increment` produce from accepted input: the
constructors with a unique value of the length of the version, `parse` of a string that passes
`validate` for its inferred version, and the vectors `increment` reaches from those. -/
inductive Derived : CorrelationVector → Prop where
  | ofVersion (guid : Guid) (version : CorrelationVectorVersion) :
      (getUniqueValue guid version).length = baseLength version →
      Derived (CorrelationVector.ofVersion guid version)
  | ofGuid (guid : Guid) : Derived (CorrelationVector.ofGuid guid)
  | parse (guid : Guid) (s : List Char) :
      validate s (inferVersion s false).1 = [] → Derived (parse guid s)
  | increment (cv : CorrelationVector) : Derived cv → Derived cv.increment.2

/-- A last stage that is not a clean non-negative integer: after its leading white space and one
optional sign it is empty or non-numeric (no digit where one is due), has a trailing character
that is not a digit, spells a value out of the range of `int`, or it is negative. -/
def notCleanInteger (part : List Char) : Prop :=
  unsignedText part = [] ∨ (∃ c ∈ unsignedText part, isdigit c = false) ∨
    INT_MAX < (digitsValue (unsignedText part) : Int) ∨
    (hasMinus part = true ∧ digitsValue (unsignedText part) ≠ 0)

/-- The 64-bit value of the documentation of `spin`: the entropy bytes folded into
`ticks >> ticksBitsToDrop` by `value := (value << 8) | byte`, arithmetic modulo `2^64`. -/
def foldEntropy (ticks : Int) (ticksBitsToDrop : Nat) (bytes : List Nat) : Nat :=
  bytes.foldl (fun value byte => ((value <<< 8) ||| byte) % 2 ^ 64)
    (toUInt64 (ticks >>> ticksBitsToDrop))

/-- The entropy bytes `spin` draws: the results of the first `entropyBytes` calls of
`std::rand()`, each cut to an `unsigned char`. -/
def entropyOf (rand : Nat → Nat) (parameters : SpinParameters) : List Nat :=
  (List.range parameters.entropyBytes).map (fun i => rand i % 256)

/-! ## `increment` called by several threads

Every access to the counter is a sequentially consistent atomic operation, so an execution is an
interleaving of the atomic steps of the threads: the load `snapshot = extension.load()`, and then
either the load inside `getValue()` (when a stopping condition holds for the snapshot) or the
`compare_exchange_weak(snapshot, next)`.  What a thread computes between two of its atomic
operations depends on its own variables only and is part of the later step. -/

/-- Where one thread stands inside its call of `increment`. -/
inductive ThreadState where
  /-- The thread is about to run `snapshot = this->extension.load()`. -/
  | start
  /-- The thread holds `snapshot` and is about to run the checks and then `getValue()` or
  `compare_exchange_weak`. -/
  | loaded (snapshot : Int)
  /-- The call has returned `value`. -/
  | returned (value : List Char)
deriving DecidableEq, Repr

/-- One shared vector together with the threads that each call `increment` once on it. -/
structure SharedVector where
  vector : CorrelationVector
  threads : List ThreadState
deriving DecidableEq, Repr

/-- The next atomic step of thread `i`.  From `start` it loads the counter.  From `loaded` it
runs the body of the loop on its snapshot: it returns `getValue()`, reading the counter as it
is now, when a stopping condition holds; otherwise `compare_exchange_weak` stores `next` and the
call returns `base.next` when the counter still is the snapshot and the operation does not fail
spuriously, and the thread goes round the loop again when it fails. -/
def SharedVector.step (shared : SharedVector) (i : Nat) (spurious : Bool) : SharedVector :=
  match shared.threads[i]? with
  | none => shared
  | some ThreadState.start =>
    ⟨shared.vector, shared.threads.set i (ThreadState.loaded shared.vector.extension)⟩
  | some (ThreadState.loaded snapshot) =>
    match ({ shared.vector with extension := snapshot } : CorrelationVector).incrementCandidate with
    | none =>
      ⟨shared.vector, shared.threads.set i (ThreadState.returned shared.vector.getValue)⟩
    | some next =>
      if shared.vector.extension = snapshot ∧ spurious = false then
        ⟨{ shared.vector with extension := next },
          shared.threads.set i
            (ThreadState.returned (shared.vector.baseVector ++ '.' :: to_string next))⟩
      else ⟨shared.vector, shared.threads.set i ThreadState.start⟩
  | some (ThreadState.returned _) => shared

/-- The execution under a schedule: which thread takes the next step, and whether a
compare-and-swap in that step fails spuriously. -/
def SharedVector.run (shared : SharedVector) : List (Nat × Bool) → SharedVector
  | [] => shared
  | (i, spurious) :: rest => (shared.step i spurious).run rest

/-- The value a thread has returned, if it has. -/
def ThreadState.value? : ThreadState → Option (List Char)
  | ThreadState.returned value => some value
  | _ => none

/-- The values returned so far, in the order of the threads. -/
def SharedVector.returnedValues (shared : SharedVector) : List (List Char) :=
  shared.threads.filterMap ThreadState.value?

/-- Whether every thread has returned. -/
def SharedVector.allReturned (shared : SharedVector) : Bool :=
  shared.threads.all (fun thread => thread.value?.isSome)

/-- The state in which `k` threads are about to call `increment` on `cv`. -/
def SharedVector.init (cv : CorrelationVector) (k : Nat) : SharedVector :=
  ⟨cv, List.replicate k ThreadState.start⟩

/-- What holds in every state reached when `k` threads call `increment` once on `cv`: base and
version do not change, the counter is ahead of its initial value by the number `d` of calls that
have returned, the returned values are `base.(e+1) … base.(e+d)` in some order, and every
snapshot a thread holds lies between the initial and the current value of the counter. -/
def SharedVector.reachedFrom (cv : CorrelationVector) (k : Nat) (shared : SharedVector) : Prop :=
  shared.vector.baseVector = cv.baseVector ∧
  shared.vector.correlationVectorVersion = cv.correlationVectorVersion ∧
  shared.threads.length = k ∧
  (∃ d : Nat, shared.vector.extension = cv.extension + d ∧
    shared.returnedValues.Perm
      ((List.range d).map
        (fun (i : Nat) => cv.baseVector ++ '.' :: to_string (cv.extension + (i : Int) + 1)))) ∧
  ∀ snapshot, ThreadState.loaded snapshot ∈ shared.threads →
    cv.extension ≤ snapshot ∧ snapshot ≤ shared.vector.extension

/-! ## Decimal text -/

theorem digitsLE_eq_digits (fuel n : Nat) (h : n ≤ fuel) : digitsLE fuel n = Nat.digits 10 n := by
  induction fuel generalizing n with
  | zero =>
    have : n = 0 := by omega
    subst this
    simp [digitsLE]
  | succ fuel ih =>
    by_cases hn : n = 0
    · subst hn
      simp [digitsLE]
    · have hpos : 0 < n := Nat.pos_of_ne_zero hn
      rw [Nat.digits_def' (by norm_num) hpos]
      simp only [digitsLE, hn, if_false]
      rw [ih (n / 10) (by omega)]

theorem decimal_of_ne_zero (n : Nat) (hn : n ≠ 0) :
    decimal n = ((Nat.digits 10 n).reverse).map digitChar := by
  simp [decimal, hn, digitsLE_eq_digits n n (le_refl n)]

theorem isdigit_digitChar (d : Nat) (hd : d < 10) : isdigit (digitChar d) = true := by
  interval_cases d <;> decide

theorem toNat_digitChar (d : Nat) (hd : d < 10) : (digitChar d).toNat - 48 = d := by
  interval_cases d <;> decide

theorem isdigit_of_mem_decimal (n : Nat) (c : Char) (hc : c ∈ decimal n) : isdigit c = true := by
  by_cases hn : n = 0
  · subst hn
    simp [decimal] at hc
    subst hc
    decide
  · rw [decimal_of_ne_zero n hn] at hc
    simp only [List.mem_map, List.mem_reverse] at hc
    obtain ⟨d, hd, rfl⟩ := hc
    exact isdigit_digitChar d (Nat.digits_lt_base (by norm_num) hd)

theorem decimal_ne_nil (n : Nat) : decimal n ≠ [] := by
  by_cases hn : n = 0
  · subst hn
    simp [decimal]
  · rw [decimal_of_ne_zero n hn]
    simp [Nat.digits_ne_nil_iff_ne_zero, hn]

theorem digitsValue_append_singleton (ds : List Char) (c : Char) :
    digitsValue (ds ++ [c]) = 10 * digitsValue ds + (c.toNat - 48) := by
  simp [digitsValue, List.foldl_append]

theorem digitsValue_map_digitChar (ds : List Nat) (h : ∀ d ∈ ds, d < 10) :
    digitsValue ((ds.reverse).map digitChar) = Nat.ofDigits 10 ds := by
  induction ds with
  | nil => simp [digitsValue]
  | cons d ds ih =>
    have hd : d < 10 := h d (List.mem_cons_self d ds)
    have hds : ∀ x ∈ ds, x < 10 := fun x hx => h x (List.mem_cons_of_mem d hx)
    rw [List.reverse_cons, List.map_append, List.map_singleton, digitsValue_append_singleton,
      ih hds, toNat_digitChar d hd, Nat.ofDigits_cons]
    omega

theorem digitsValue_decimal (n : Nat) : digitsValue (decimal n) = n := by
  by_cases hn : n = 0
  · subst hn
    decide
  · rw [decimal_of_ne_zero n hn,
      digitsValue_map_digitChar _ (fun d hd => Nat.digits_lt_base (by norm_num) hd),
      Nat.ofDigits_digits]

theorem log10Fuel_eq_log (fuel n : Nat) (h : n ≤ fuel) : log10Fuel fuel n = Nat.log 10 n := by
  induction fuel generalizing n with
  | zero =>
    have : n = 0 := by omega
    subst this
    simp [log10Fuel]
  | succ fuel ih =>
    by_cases hn : n < 10
    · simp [log10Fuel, hn, Nat.log_of_lt hn]
    · have h10 : 10 ≤ n := by omega
      rw [Nat.log_of_one_lt_of_le (by norm_num) h10]
      simp only [log10Fuel, hn, if_false]
      rw [ih (n / 10) (by omega)]

theorem length_decimal (n : Nat) (hn : n ≠ 0) : (decimal n).length = Nat.log 10 n + 1 := by
  rw [decimal_of_ne_zero n hn]
  simp [Nat.digits_len 10 n (by norm_num) hn]

/-! ## `std::stoi` on decimal text -/

theorem not_isspace_of_isdigit (c : Char) (h : isdigit c = true) : isspace c = false := by
  simp only [isdigit, Bool.and_eq_true, decide_eq_true_eq] at h
  simp only [isspace, Bool.or_eq_false_iff, decide_eq_false_iff_not, Bool.and_eq_false_iff]
  omega

theorem ne_minus_of_isdigit (c : Char) (h : isdigit c = true) : c ≠ '-' := by
  rintro rfl
  exact absurd h (by decide)

theorem ne_plus_of_isdigit (c : Char) (h : isdigit c = true) : c ≠ '+' := by
  rintro rfl
  exact absurd h (by decide)

theorem ne_dot_of_isdigit (c : Char) (h : isdigit c = true) : c ≠ '.' := by
  rintro rfl
  exact absurd h (by decide)

/-- On a non-empty run of digits that spells a value within `int`, `std::stoi` returns that value
and consumes the whole run. -/
theorem stoi_digits (ds : List Char) (hne : ds ≠ []) (hall : ∀ c ∈ ds, isdigit c = true)
    (hmax : (digitsValue ds : Int) ≤ INT_MAX) :
    stoi ds = StoiResult.value (digitsValue ds) ds.length := by
  obtain ⟨c, cs, rfl⟩ := List.exists_cons_of_ne_nil hne
  have hc : isdigit c = true := hall c (List.mem_cons_self c cs)
  have hsp : isspace c = false := not_isspace_of_isdigit c hc
  have hdrop : (c :: cs).dropWhile isspace = c :: cs := by
    simp [List.dropWhile_cons, hsp]
  have htake : (c :: cs).takeWhile isdigit = c :: cs :=
    List.takeWhile_eq_self_iff.mpr hall
  have hm : c ≠ '-' := ne_minus_of_isdigit c hc
  have hp : c ≠ '+' := ne_plus_of_isdigit c hc
  have hlo : ¬ ((digitsValue (c :: cs) : Int) < INT_MIN) := by
    have : (0 : Int) ≤ (digitsValue (c :: cs) : Int) := Int.ofNat_nonneg _
    simp only [INT_MIN]
    omega
  have hhi : ¬ (INT_MAX < (digitsValue (c :: cs) : Int)) := not_lt.mpr hmax
  simp only [stoi, hdrop, List.head?_cons, Option.some.injEq, hm, hp, or_self, if_false,
    List.drop_zero, htake, decide_False, Bool.false_eq_true, hlo, hhi, Nat.sub_self, Nat.zero_add,
    Nat.add_zero, reduceCtorEq]

theorem stoi_decimal (n : Nat) (hmax : (n : Int) ≤ INT_MAX) :
    stoi (decimal n) = StoiResult.value n (decimal n).length := by
  have h := stoi_digits (decimal n) (decimal_ne_nil n) (isdigit_of_mem_decimal n)
    (by rw [digitsValue_decimal]; exact hmax)
  rw [digitsValue_decimal] at h
  exact h

theorem to_string_of_nonneg (e : Int) (h : 0 ≤ e) : to_string e = decimal e.toNat := by
  simp [to_string, not_lt.mpr h]

theorem stoi_to_string (e : Int) (h0 : 0 ≤ e) (hmax : e ≤ INT_MAX) :
    stoi (to_string e) = StoiResult.value e (to_string e).length := by
  rw [to_string_of_nonneg e h0]
  have h := stoi_decimal e.toNat (by rw [Int.toNat_of_nonneg h0]; exact hmax)
  rw [Int.toNat_of_nonneg h0] at h
  exact h

theorem dot_not_mem_decimal (n : Nat) : '.' ∉ decimal n :=
  fun h => ne_dot_of_isdigit _ (isdigit_of_mem_decimal n _ h) rfl

theorem dot_not_mem_to_string (e : Int) (h : 0 ≤ e) : '.' ∉ to_string e := by
  rw [to_string_of_nonneg e h]
  exact dot_not_mem_decimal _

/-! ## Searching and splitting -/

theorem find_last_of_eq_none (s : List Char) (c : Char) (h : c ∉ s) : find_last_of s c = none := by
  induction s with
  | nil => rfl
  | cons x xs ih =>
    have hx : x ≠ c := fun hxc => h (hxc ▸ List.mem_cons_self x xs)
    have hxs : c ∉ xs := fun hm => h (List.mem_cons_of_mem x hm)
    simp [find_last_of, ih hxs, hx]

theorem find_last_of_append (b t : List Char) (c : Char) (h : c ∉ t) :
    find_last_of (b ++ c :: t) c = some b.length := by
  induction b with
  | nil => simp [find_last_of, find_last_of_eq_none t c h]
  | cons x xs ih => simp [find_last_of, ih]

theorem find_first_of_append (b t : List Char) (c : Char) (h : c ∉ b) :
    find_first_of (b ++ c :: t) c = some b.length := by
  induction b with
  | nil => simp [find_first_of]
  | cons x xs ih =>
    have hx : x ≠ c := fun hxc => h (hxc ▸ List.mem_cons_self x xs)
    have hxs : c ∉ xs := fun hm => h (List.mem_cons_of_mem x hm)
    simp [find_first_of, ih hxs, hx]

theorem split_str_ne_nil (s : List Char) (c : Char) : split_str s c ≠ [] := by
  induction s with
  | nil => simp [split_str]
  | cons x xs ih =>
    unfold split_str
    split
    · simp
    · split <;> simp

theorem split_str_of_not_mem (s : List Char) (c : Char) (h : c ∉ s) : split_str s c = [s] := by
  induction s with
  | nil => rfl
  | cons x xs ih =>
    have hx : x ≠ c := fun hxc => h (hxc ▸ List.mem_cons_self x xs)
    have hxs : c ∉ xs := fun hm => h (List.mem_cons_of_mem x hm)
    simp [split_str, ih hxs, hx]

theorem split_str_append (b t : List Char) (c : Char) (h : c ∉ b) :
    split_str (b ++ c :: t) c = b :: split_str t c := by
  induction b with
  | nil => simp [split_str]
  | cons x xs ih =>
    have hx : x ≠ c := fun hxc => h (hxc ▸ List.mem_cons_self x xs)
    have hxs : c ∉ xs := fun hm => h (List.mem_cons_of_mem x hm)
    simp [split_str, ih hxs, hx]

theorem find_first_of_append_le (b t : List Char) (c : Char) :
    ∃ i, find_first_of (b ++ c :: t) c = some i ∧ i ≤ b.length := by
  induction b with
  | nil => exact ⟨0, by simp [find_first_of], le_refl _⟩
  | cons x xs ih =>
    obtain ⟨i, hi, hle⟩ := ih
    by_cases hx : x = c
    · exact ⟨0, by simp [find_first_of, hx], Nat.zero_le _⟩
    · exact ⟨i + 1, by simp [find_first_of, hx, hi], by simpa using hle⟩

/-! ## `parse` on a string whose last stage is clean -/

theorem parse_append (guid : Guid) (b t : List Char) (extension : Int) (hb : b ≠ [])
    (ht : '.' ∉ t) (hstoi : stoi t = StoiResult.value extension t.length)
    (h0 : 0 ≤ extension) :
    parse guid (b ++ '.' :: t) = ⟨b, extension, (inferVersion (b ++ '.' :: t) false).1⟩ := by
  have hpos : 0 < b.length := List.length_pos.mpr hb
  have hempty : (b ++ '.' :: t).isEmpty = false := by
    cases b with
    | nil => exact absurd rfl hb
    | cons x xs => rfl
  have hp : ((b.length : Int) + 1).toNat = b.length + 1 := by omega
  have hdrop : (b ++ '.' :: t).drop (b.length + 1) = t := by
    rw [List.drop_append_eq_append_drop]
    simp
  have hgt : (0 : Int) < (b.length : Int) := by exact_mod_cast hpos
  simp only [parse, hempty, Bool.false_eq_true, if_false, find_last_of_append b t '.' ht, hgt,
    gt_iff_lt, if_true, hp, hdrop, hstoi, true_and, ge_iff_le, h0, Int.toNat_ofNat,
    List.take_left]

/-! ## `increment` -/

theorem log10_eq_log (next : Int) : log10 next = Nat.log 10 next.toNat :=
  log10Fuel_eq_log _ _ (le_refl _)

theorem digitCount_eq (next : Int) (h : 1 ≤ next) : digitCount next = log10 next + 1 := by
  have hn : next.toNat ≠ 0 := by omega
  rw [digitCount, to_string_of_nonneg next (by omega), length_decimal _ hn, log10_eq_log]

theorem sizeWith_eq (cv : CorrelationVector) (next : Int) (h : 1 ≤ next) :
    cv.sizeWith next = cv.baseVector.length + 1 + digitCount next := by
  rw [digitCount_eq next h]
  rfl

theorem length_append_to_string (b : List Char) (next : Int) :
    (b ++ '.' :: to_string next).length = b.length + 1 + digitCount next := by
  simp only [digitCount, List.length_append, List.length_cons]
  omega

theorem digitCount_le_ten (next : Int) (h : 1 ≤ next) (hmax : next ≤ INT_MAX) :
    digitCount next ≤ 10 := by
  rw [digitCount_eq next h, log10_eq_log]
  have hn : next.toNat ≠ 0 := by omega
  have hlt : next.toNat < 10 ^ 10 := by
    simp only [INT_MAX] at hmax
    omega
  have := Nat.log_lt_of_lt_pow hn hlt
  omega

theorem incrementCandidate_eq_some (cv : CorrelationVector) (hne : cv.extension ≠ INT_MAX)
    (hsize : cv.sizeWith (cv.extension + 1) ≤ maxVectorLength cv.getVersion) :
    cv.incrementCandidate = some (cv.extension + 1) := by
  have h1 : ¬ (cv.getVersion = CorrelationVectorVersion.V1 ∧
      cv.sizeWith (cv.extension + 1) > MAX_VECTOR_LENGTH) := by
    rintro ⟨hv, hgt⟩
    rw [hv] at hsize
    simp only [maxVectorLength] at hsize
    omega
  have h2 : ¬ (cv.getVersion = CorrelationVectorVersion.V2 ∧
      cv.sizeWith (cv.extension + 1) > MAX_VECTOR_LENGTH_V2) := by
    rintro ⟨hv, hgt⟩
    rw [hv] at hsize
    simp only [maxVectorLength] at hsize
    omega
  simp [CorrelationVector.incrementCandidate, hne, h1, h2]

theorem incrementCandidate_eq_none (cv : CorrelationVector)
    (hstop : cv.extension = INT_MAX ∨
      cv.sizeWith (cv.extension + 1) > maxVectorLength cv.getVersion) :
    cv.incrementCandidate = none := by
  by_cases hmax : cv.extension = INT_MAX
  · simp [CorrelationVector.incrementCandidate, hmax]
  · have hgt := hstop.resolve_left hmax
    simp only [CorrelationVector.incrementCandidate, hmax, if_false]
    cases hv : cv.getVersion with
    | V1 =>
      rw [hv] at hgt
      simp only [maxVectorLength] at hgt
      simp [hgt]
    | V2 =>
      rw [hv] at hgt
      simp only [maxVectorLength] at hgt
      simp [hgt]

theorem incrementCandidate_cases (cv : CorrelationVector) :
    (cv.incrementCandidate = none ∧
      (cv.extension = INT_MAX ∨
        cv.sizeWith (cv.extension + 1) > maxVectorLength cv.getVersion)) ∨
    (cv.incrementCandidate = some (cv.extension + 1) ∧ cv.extension ≠ INT_MAX ∧
      cv.sizeWith (cv.extension + 1) ≤ maxVectorLength cv.getVersion) := by
  by_cases hstop : cv.extension = INT_MAX ∨
      cv.sizeWith (cv.extension + 1) > maxVectorLength cv.getVersion
  · exact Or.inl ⟨incrementCandidate_eq_none cv hstop, hstop⟩
  · have hne : cv.extension ≠ INT_MAX := fun h => hstop (Or.inl h)
    have hle : cv.sizeWith (cv.extension + 1) ≤ maxVectorLength cv.getVersion :=
      not_lt.mp (fun h => hstop (Or.inr h))
    exact Or.inr ⟨incrementCandidate_eq_some cv hne hle, hne, hle⟩

theorem increment_of_none (cv : CorrelationVector) (h : cv.incrementCandidate = none) :
    cv.increment = (cv.getValue, cv) := by
  simp [CorrelationVector.increment, CorrelationVector.incrementRetry, h]

theorem increment_of_some (cv : CorrelationVector) (next : Int)
    (h : cv.incrementCandidate = some next) :
    cv.increment =
      (cv.baseVector ++ '.' :: to_string next, { cv with extension := next }) := by
  simp [CorrelationVector.increment, CorrelationVector.incrementRetry, h]

/-- Spurious failures of `compare_exchange_weak` do not change what `increment` returns. -/
theorem incrementRetry_eq_increment (cv : CorrelationVector) (failures : Nat) :
    cv.incrementRetry failures = cv.increment := by
  induction failures with
  | zero => rfl
  | succ k ih =>
    cases h : cv.incrementCandidate with
    | none => simp [CorrelationVector.increment, CorrelationVector.incrementRetry, h]
    | some next =>
      rw [← ih]
      simp [CorrelationVector.incrementRetry, h]

theorem incrementMany_succ (cv : CorrelationVector) (n : Nat) :
    cv.incrementMany (n + 1) =
      (cv.increment.1 :: (cv.increment.2.incrementMany n).1,
        (cv.increment.2.incrementMany n).2) := rfl

theorem incrementMany_add (cv : CorrelationVector) (m k : Nat) :
    (cv.incrementMany (m + k)).2 = ((cv.incrementMany m).2.incrementMany k).2 := by
  induction m generalizing cv with
  | zero => simp [CorrelationVector.incrementMany]
  | succ m ih =>
    rw [Nat.add_right_comm, incrementMany_succ, incrementMany_succ]
    exact ih cv.increment.2

theorem incrementMany_snoc (cv : CorrelationVector) (n : Nat) :
    (cv.incrementMany (n + 1)).1 =
      (cv.incrementMany n).1 ++ [(cv.incrementMany n).2.increment.1] := by
  induction n generalizing cv with
  | zero => simp [CorrelationVector.incrementMany]
  | succ n ih =>
    have h := ih cv.increment.2
    rw [incrementMany_succ cv (n + 1)]
    simp only []
    rw [h, incrementMany_succ cv n]
    simp

/-- While the counter stays within `int` and ten digits fit behind the base, `n` calls of
`increment` return the next `n` values and leave the counter `n` higher. -/
theorem incrementMany_advance (cv : CorrelationVector) (n : Nat) (h0 : 0 ≤ cv.extension)
    (hn : cv.extension + n ≤ INT_MAX)
    (hlen : cv.baseVector.length + 11 ≤ maxVectorLength cv.getVersion) :
    cv.incrementMany n =
      ((List.range n).map
          (fun (i : Nat) => cv.baseVector ++ '.' :: to_string (cv.extension + (i : Int) + 1)),
        { cv with extension := cv.extension + n }) := by
  induction n generalizing cv with
  | zero => simp [CorrelationVector.incrementMany]
  | succ n ih =>
    have hne : cv.extension ≠ INT_MAX := by
      intro h
      rw [h] at hn
      push_cast at hn
      omega
    have hlt : cv.extension + 1 ≤ INT_MAX := by
      push_cast at hn
      omega
    have hsize : cv.sizeWith (cv.extension + 1) ≤ maxVectorLength cv.getVersion := by
      rw [sizeWith_eq cv _ (by omega)]
      have := digitCount_le_ten (cv.extension + 1) (by omega) hlt
      omega
    have hinc := increment_of_some cv _ (incrementCandidate_eq_some cv hne hsize)
    rw [incrementMany_succ, hinc]
    have ih2 := ih { cv with extension := cv.extension + 1 } (by simp; omega)
      (by push_cast at hn; simp; omega) hlen
    rw [ih2, List.range_succ_eq_map, List.map_cons, List.map_map]
    simp only [CorrelationVector.mk.injEq, Prod.mk.injEq, List.cons.injEq]
    refine ⟨⟨by simp, ?_⟩, trivial, ?_, trivial⟩
    · apply List.map_congr_left
      intro i _
      simp only [Function.comp, Nat.succ_eq_add_one]
      congr 3
      push_cast
      ring
    · push_cast
      ring

theorem inferVersion_fst_irrel (s : List Char) (reportErrors : Bool) :
    (inferVersion s reportErrors).1 = (inferVersion s false).1 := by
  unfold inferVersion
  simp only []
  split_ifs <;> rfl

theorem getValue_length (cv : CorrelationVector) :
    cv.getValue.length = cv.baseVector.length + 1 + digitCount cv.extension :=
  length_append_to_string cv.baseVector cv.extension

/-- One call of `increment` keeps the counter within `0 .. INT_MAX`, never lowers it, keeps the
serialized value within the length budget, and changes neither base nor version. -/
theorem increment_step (cv : CorrelationVector) (h0 : 0 ≤ cv.extension)
    (hmax : cv.extension ≤ INT_MAX)
    (hfit : cv.getValue.length ≤ maxVectorLength cv.getVersion) :
    cv.extension ≤ cv.increment.2.extension ∧ cv.increment.2.extension ≤ INT_MAX ∧
    cv.increment.2.getValue.length ≤ maxVectorLength cv.increment.2.getVersion := by
  rcases incrementCandidate_cases cv with ⟨hnone, _⟩ | ⟨hsome, hne, hsize⟩
  · rw [increment_of_none cv hnone]
    exact ⟨le_refl _, hmax, hfit⟩
  · rw [increment_of_some cv _ hsome]
    refine ⟨by simp, ?_, ?_⟩
    · have : cv.extension < INT_MAX := lt_of_le_of_ne hmax hne
      simp only []
      omega
    · rw [sizeWith_eq cv _ (by omega)] at hsize
      rw [getValue_length]
      exact hsize

theorem incrementMany_invariant (cv : CorrelationVector) (n : Nat) (h0 : 0 ≤ cv.extension)
    (hmax : cv.extension ≤ INT_MAX)
    (hfit : cv.getValue.length ≤ maxVectorLength cv.getVersion) :
    cv.extension ≤ (cv.incrementMany n).2.extension ∧
    (cv.incrementMany n).2.extension ≤ INT_MAX ∧
    (cv.incrementMany n).2.getValue.length ≤ maxVectorLength (cv.incrementMany n).2.getVersion := by
  induction n generalizing cv with
  | zero => exact ⟨le_refl _, hmax, hfit⟩
  | succ n ih =>
    obtain ⟨h1, h2, h3⟩ := increment_step cv h0 hmax hfit
    obtain ⟨k1, k2, k3⟩ := ih cv.increment.2 (le_trans h0 h1) h2 h3
    rw [incrementMany_succ]
    exact ⟨le_trans h1 k1, k2, k3⟩

theorem incrementMany_of_none (cv : CorrelationVector) (h : cv.incrementCandidate = none)
    (n : Nat) : cv.incrementMany n = (List.replicate n cv.getValue, cv) := by
  induction n with
  | zero => rfl
  | succ n ih =>
    rw [incrementMany_succ, increment_of_none cv h]
    simp only []
    rw [ih]
    rfl

/-! ## `validate` -/

theorem validateExtensions_ok_iff (s : List Char) (parts : List (List Char)) :
    validateExtensions s parts = Except.ok () ↔
      ∀ part ∈ parts, ∃ result : Int, stoi part = StoiResult.value result part.length ∧
        0 ≤ result := by
  induction parts with
  | nil => simp [validateExtensions]
  | cons part rest ih =>
    rw [List.forall_mem_cons, ← ih]
    cases hst : stoi part with
    | value result lastChar =>
      simp only [validateExtensions, hst]
      by_cases hbad : lastChar ≠ part.length ∨ result < 0
      · simp only [hbad, if_true, reduceCtorEq, false_iff, not_and]
        rintro ⟨r, hr, hr0⟩ _
        simp only [StoiResult.value.injEq] at hr
        obtain ⟨rfl, rfl⟩ := hr
        rcases hbad with h | h
        · exact h rfl
        · omega
      · simp only [hbad, if_false]
        push_neg at hbad
        constructor
        · intro h
          exact ⟨⟨result, by rw [hbad.1], hbad.2⟩, h⟩
        · intro h
          exact h.2
    | invalid_argument => simp [validateExtensions, hst]
    | out_of_range => simp [validateExtensions, hst]

theorem validate_eq_nil_iff (s : List Char) (version : CorrelationVectorVersion) :
    validate s version = [] ↔
      isEmptyOrWhiteSpace s = false ∧ s.length ≤ maxVectorLength version ∧
      2 ≤ (split_str s '.').length ∧
      ((split_str s '.').headD []).length = baseLength version ∧
      ∀ part ∈ (split_str s '.').tail, ∃ result : Int,
        stoi part = StoiResult.value result part.length ∧ 0 ≤ result := by
  rw [← validateExtensions_ok_iff s]
  unfold validate validateBody
  by_cases h1 : isEmptyOrWhiteSpace s = true ∨ s.length > maxVectorLength version
  · simp only [h1, if_true, reduceCtorEq, false_iff]
    rintro ⟨ha, hb, _⟩
    rcases h1 with h | h
    · rw [ha] at h
      exact absurd h (by decide)
    · omega
  · simp only [h1, if_false]
    push_neg at h1
    by_cases h2 : (split_str s '.').length < 2 ∨
        ((split_str s '.').headD []).length ≠ baseLength version
    · simp only [h2, if_true, reduceCtorEq, false_iff]
      rintro ⟨_, _, hc, hd, _⟩
      rcases h2 with h | h
      · omega
      · exact h hd
    · simp only [h2, if_false]
      push_neg at h2
      have h1a : isEmptyOrWhiteSpace s = false := by simpa using h1.1
      cases hv : validateExtensions s (split_str s '.').tail with
      | error m => simp
      | ok u => exact ⟨fun _ => ⟨h1a, h1.2, h2.1, h2.2, rfl⟩, fun _ => rfl⟩

theorem validate_reports_one (s : List Char) (version : CorrelationVectorVersion)
    (h : validate s version ≠ []) : ∃ message, validate s version = [message] := by
  unfold validate at h ⊢
  cases hb : validateBody s version with
  | error m => exact ⟨m, rfl⟩
  | ok u =>
    rw [hb] at h
    exact absurd rfl h

/-- What `std::stoi` has seen when it converts a whole part: after the white space and the
optional sign, digits only to the end, spelling the magnitude of the result. -/
theorem stoi_value_inv (part : List Char) (result : Int)
    (h : stoi part = StoiResult.value result part.length) :
    unsignedText part ≠ [] ∧ (∀ c ∈ unsignedText part, isdigit c = true) ∧
    INT_MIN ≤ result ∧ result ≤ INT_MAX ∧
    result = (if hasMinus part = true then -(digitsValue (unsignedText part) : Int)
      else (digitsValue (unsignedText part) : Int)) := by
  have hbody : (part.dropWhile isspace).length ≤ part.length :=
    (List.dropWhile_suffix isspace).length_le
  have hk : (if (part.dropWhile isspace).head? = some '-' ∨
      (part.dropWhile isspace).head? = some '+' then 1 else 0) ≤
      (part.dropWhile isspace).length := by
    cases hb : part.dropWhile isspace with
    | nil => simp
    | cons c rest =>
      simp only [List.length_cons]
      split <;> omega
  have hulen : (unsignedText part).length = (part.dropWhile isspace).length -
      (if (part.dropWhile isspace).head? = some '-' ∨
        (part.dropWhile isspace).head? = some '+' then 1 else 0) := by
    simp only [unsignedText, List.length_drop]
  have htake : ((unsignedText part).takeWhile isdigit).length ≤ (unsignedText part).length :=
    (List.takeWhile_prefix isdigit).length_le
  have hst : stoi part =
      if (unsignedText part).takeWhile isdigit = [] then StoiResult.invalid_argument
      else
        if (if hasMinus part = true then
              -(digitsValue ((unsignedText part).takeWhile isdigit) : Int)
            else (digitsValue ((unsignedText part).takeWhile isdigit) : Int)) < INT_MIN ∨
            INT_MAX < (if hasMinus part = true then
              -(digitsValue ((unsignedText part).takeWhile isdigit) : Int)
            else (digitsValue ((unsignedText part).takeWhile isdigit) : Int)) then
          StoiResult.out_of_range
        else
          StoiResult.value
            (if hasMinus part = true then
              -(digitsValue ((unsignedText part).takeWhile isdigit) : Int)
            else (digitsValue ((unsignedText part).takeWhile isdigit) : Int))
            (part.length - (part.dropWhile isspace).length +
              (if (part.dropWhile isspace).head? = some '-' ∨
                (part.dropWhile isspace).head? = some '+' then 1 else 0) +
              ((unsignedText part).takeWhile isdigit).length) := rfl
  rw [hst] at h
  by_cases hd : (unsignedText part).takeWhile isdigit = []
  · rw [if_pos hd] at h
    exact absurd h (by simp)
  · rw [if_neg hd] at h
    by_cases hr : (if hasMinus part = true then
              -(digitsValue ((unsignedText part).takeWhile isdigit) : Int)
            else (digitsValue ((unsignedText part).takeWhile isdigit) : Int)) < INT_MIN ∨
            INT_MAX < (if hasMinus part = true then
              -(digitsValue ((unsignedText part).takeWhile isdigit) : Int)
            else (digitsValue ((unsignedText part).takeWhile isdigit) : Int))
    · rw [if_pos hr] at h
      exact absurd h (by simp)
    · rw [if_neg hr] at h
      simp only [StoiResult.value.injEq] at h
      obtain ⟨hres, hpos⟩ := h
      have hwhole : (unsignedText part).takeWhile isdigit = unsignedText part :=
        (List.takeWhile_prefix isdigit).eq_of_length (by omega)
      rw [hwhole] at hd hres hr
      push_neg at hr
      refine ⟨hd, List.takeWhile_eq_self_iff.mp hwhole, ?_, ?_, hres.symm⟩
      · rw [← hres]
        exact hr.1
      · rw [← hres]
        exact hr.2

theorem split_str_dotted (e : Int) (es : List Int) (h0 : 0 ≤ e) (h : ∀ x ∈ es, 0 ≤ x) :
    split_str (to_string e ++ dotted es) '.' = to_string e :: es.map to_string := by
  induction es generalizing e with
  | nil =>
    simp only [dotted, List.append_nil, List.map_nil]
    exact split_str_of_not_mem _ _ (dot_not_mem_to_string e h0)
  | cons x xs ih =>
    have hx : 0 ≤ x := h x (List.mem_cons_self x xs)
    have hxs : ∀ y ∈ xs, 0 ≤ y := fun y hy => h y (List.mem_cons_of_mem x hy)
    simp only [dotted, List.map_cons]
    rw [split_str_append _ _ '.' (dot_not_mem_to_string e h0), ih x hx hxs]

theorem isEmptyOrWhiteSpace_of_dot_mem (s : List Char) (h : '.' ∈ s) :
    isEmptyOrWhiteSpace s = false := by
  cases s with
  | nil => exact absurd h (by simp)
  | cons x xs =>
    simp only [isEmptyOrWhiteSpace, List.isEmpty_cons, Bool.false_or]
    by_contra hall
    rw [Bool.not_eq_false, List.all_eq_true] at hall
    have := hall '.' h
    exact absurd this (by decide)

/-! ## The length budget over the whole interface -/

theorem split_str_append_all (b t : List Char) (c : Char) :
    split_str (b ++ c :: t) c = split_str b c ++ split_str t c := by
  induction b with
  | nil => simp [split_str]
  | cons x xs ih =>
    by_cases hx : x = c
    · simp [split_str, hx, ih]
    · obtain ⟨p, ps, hp⟩ := List.exists_cons_of_ne_nil (split_str_ne_nil xs c)
      simp [split_str, hx, ih, hp]

theorem exists_last_occurrence (s : List Char) (c : Char) (h : c ∈ s) :
    ∃ b t, s = b ++ c :: t ∧ c ∉ t := by
  induction s with
  | nil => exact absurd h (by simp)
  | cons x xs ih =>
    by_cases hc : c ∈ xs
    · obtain ⟨b, t, hbt, ht⟩ := ih hc
      exact ⟨x :: b, t, by rw [hbt]; rfl, ht⟩
    · have hx : c = x := by
        rcases List.mem_cons.mp h with h1 | h1
        · exact h1
        · exact absurd h1 hc
      exact ⟨[], xs, by rw [hx]; rfl, hc⟩

theorem digitsValue_lt_pow (ds : List Char) (h : ∀ c ∈ ds, isdigit c = true) :
    digitsValue ds < 10 ^ ds.length := by
  induction ds using List.reverseRecOn with
  | nil => simp [digitsValue]
  | append_singleton l a ih =>
    have hl : ∀ c ∈ l, isdigit c = true := fun c hc => h c (List.mem_append_left _ hc)
    have ha : isdigit a = true := h a (by simp)
    simp only [isdigit, Bool.and_eq_true, decide_eq_true_eq] at ha
    have := ih hl
    rw [digitsValue_append_singleton, List.length_append, List.length_singleton, pow_succ]
    omega

theorem length_unsignedText_le (part : List Char) : (unsignedText part).length ≤ part.length := by
  have hbody : (part.dropWhile isspace).length ≤ part.length :=
    (List.dropWhile_suffix isspace).length_le
  simp only [unsignedText, List.length_drop]
  omega

/-- The decimal text of a value `std::stoi` read from a whole part is not longer than the part. -/
theorem digitCount_le_of_stoi (part : List Char) (result : Int)
    (h : stoi part = StoiResult.value result part.length) (h0 : 0 ≤ result) :
    digitCount result ≤ part.length := by
  obtain ⟨hne, hdig, _, _, hres⟩ := stoi_value_inv part result h
  have hlen := length_unsignedText_le part
  have hpos : 0 < (unsignedText part).length := List.length_pos.mpr hne
  have hval : result = (digitsValue (unsignedText part) : Int) := by
    by_cases hm : hasMinus part = true
    · rw [if_pos hm] at hres
      have : (0 : Int) ≤ (digitsValue (unsignedText part) : Int) := Int.ofNat_nonneg _
      omega
    · rw [if_neg hm] at hres
      exact hres
  have hlt := digitsValue_lt_pow (unsignedText part) hdig
  rw [digitCount, hval, to_string_of_nonneg _ (Int.ofNat_nonneg _), Int.toNat_ofNat]
  by_cases hz : digitsValue (unsignedText part) = 0
  · rw [hz]
    simp only [decimal, if_true, List.length_singleton]
    omega
  · rw [length_decimal _ hz]
    have := Nat.log_lt_of_lt_pow hz hlt
    omega

/-- On a string that passes `validate`, `parse` splits at the last `.` and does not fall back to
a new vector. -/
theorem parse_of_validate (guid : Guid) (s : List Char) (version : CorrelationVectorVersion)
    (h : validate s version = []) :
    ∃ b t, ∃ result : Int, s = b ++ '.' :: t ∧
      parse guid s = ⟨b, result, (inferVersion s false).1⟩ ∧
      0 ≤ result ∧ result ≤ INT_MAX ∧ digitCount result ≤ t.length := by
  obtain ⟨_, _, hparts, hhead, hext⟩ := (validate_eq_nil_iff s version).mp h
  have hdot : '.' ∈ s := by
    by_contra hnot
    rw [split_str_of_not_mem s '.' hnot] at hparts
    simp at hparts
  obtain ⟨b, t, rfl, ht⟩ := exists_last_occurrence s '.' hdot
  rw [split_str_append_all, split_str_of_not_mem t '.' ht] at hhead hext
  have hb : b ≠ [] := by
    rintro rfl
    simp only [split_str, List.singleton_append, List.headD_cons, List.length_nil] at hhead
    cases version <;> exact absurd hhead (by decide)
  have hmem : t ∈ (split_str b '.' ++ [t]).tail := by
    rw [List.tail_append_of_ne_nil (split_str_ne_nil b '.')]
    simp
  obtain ⟨result, hst, h0⟩ := hext t hmem
  obtain ⟨_, _, _, hmax, _⟩ := stoi_value_inv t result hst
  exact ⟨b, t, result, rfl, parse_append guid b t result hb ht hst h0, h0, hmax,
    digitCount_le_of_stoi t result hst h0⟩

/-- Constructors, `parse` of a validated string and `increment` keep the counter within
`0 .. INT_MAX` and the value within the length budget of the version. -/
theorem derived_invariant (cv : CorrelationVector) (h : Derived cv) :
    0 ≤ cv.extension ∧ cv.extension ≤ INT_MAX ∧
    cv.getValue.length ≤ maxVectorLength cv.getVersion := by
  induction h with
  | ofVersion guid version hlen =>
    refine ⟨le_refl _, (by decide : (0 : Int) ≤ INT_MAX), ?_⟩
    rw [getValue_length]
    simp only [CorrelationVector.ofVersion, CorrelationVector.getVersion, hlen]
    cases version <;> decide
  | ofGuid guid =>
    refine ⟨le_refl _, (by decide : (0 : Int) ≤ INT_MAX), ?_⟩
    rw [getValue_length]
    have : (getBaseFromGuid guid).length ≤ BASE_LENGTH_V2 := by
      simp only [getBaseFromGuid, List.length_take]
      omega
    simp only [BASE_LENGTH_V2] at this
    have hd : digitCount 0 = 1 := by decide
    simp only [CorrelationVector.ofGuid, CorrelationVector.getVersion, maxVectorLength,
      MAX_VECTOR_LENGTH_V2, hd]
    omega
  | parse guid s hval =>
    obtain ⟨b, t, result, hs, hparse, h0, hmax, hdc⟩ := parse_of_validate guid s _ hval
    obtain ⟨_, hlen, _⟩ := (validate_eq_nil_iff s _).mp hval
    rw [hparse]
    refine ⟨h0, hmax, ?_⟩
    rw [getValue_length]
    simp only [CorrelationVector.getVersion]
    rw [hs] at hlen
    simp only [List.length_append, List.length_cons] at hlen
    rw [← hs] at hlen
    omega
  | increment cv _ ih =>
    obtain ⟨h0, hmax, hfit⟩ := ih
    obtain ⟨h1, h2, h3⟩ := increment_step cv h0 hmax hfit
    exact ⟨le_trans h0 h1, h2, h3⟩

/-! ## The first delimiter and `inferVersion` -/

theorem find_first_of_eq_some (s : List Char) (c : Char) (i : Nat)
    (h : find_first_of s c = some i) :
    ∃ b t, s = b ++ c :: t ∧ c ∉ b ∧ b.length = i := by
  induction s generalizing i with
  | nil => simp [find_first_of] at h
  | cons x xs ih =>
    by_cases hx : x = c
    · simp only [find_first_of, hx, if_true, Option.some.injEq] at h
      exact ⟨[], xs, by rw [hx]; rfl, by simp, by simpa using h⟩
    · simp only [find_first_of, hx, if_false, Option.map_eq_some'] at h
      obtain ⟨j, hj, rfl⟩ := h
      obtain ⟨b, t, hbt, hb, hlen⟩ := ih j hj
      refine ⟨x :: b, t, by rw [hbt]; rfl, ?_, by simp [hlen]⟩
      intro hm
      rcases List.mem_cons.mp hm with h1 | h1
      · exact hx h1.symm
      · exact hb h1

theorem find_first_of_eq_some_iff (s : List Char) (c : Char) (i : Nat) :
    find_first_of s c = some i ↔ ∃ b t, s = b ++ c :: t ∧ c ∉ b ∧ b.length = i := by
  constructor
  · exact find_first_of_eq_some s c i
  · rintro ⟨b, t, rfl, hb, rfl⟩
    exact find_first_of_append b t c hb

theorem find_first_of_append_of_mem (b t : List Char) (c : Char) (h : c ∈ b) :
    find_first_of (b ++ t) c = find_first_of b c := by
  induction b with
  | nil => exact absurd h (by simp)
  | cons x xs ih =>
    by_cases hx : x = c
    · simp [find_first_of, hx]
    · have hxs : c ∈ xs := by
        rcases List.mem_cons.mp h with h1 | h1
        · exact absurd h1.symm hx
        · exact h1
      simp [find_first_of, hx, ih hxs]

/-- The version `inferVersion` returns, read off the index of the first `.`. -/
theorem inferVersion_fst (s : List Char) (reportErrors : Bool) :
    (inferVersion s reportErrors).1 =
      if find_first_of s '.' = some BASE_LENGTH then CorrelationVectorVersion.V1
      else if find_first_of s '.' = some BASE_LENGTH_V2 then CorrelationVectorVersion.V2
      else CorrelationVectorVersion.V1 := by
  cases s with
  | nil => rfl
  | cons x xs =>
    unfold inferVersion
    simp only [List.isEmpty_cons, Bool.false_eq_true, if_false]
    split_ifs <;> rfl

theorem inferVersion_of_first_dot (s b t : List Char) (version : CorrelationVectorVersion)
    (reportErrors : Bool) (hs : s = b ++ '.' :: t) (hb : '.' ∉ b)
    (hlen : b.length = baseLength version) : (inferVersion s reportErrors).1 = version := by
  rw [inferVersion_fst, hs, find_first_of_append b t '.' hb, hlen]
  cases version <;> decide

theorem inferVersion_append_of_mem (b t : List Char) (h : '.' ∈ b) :
    (inferVersion (b ++ t) false).1 = (inferVersion b false).1 := by
  rw [inferVersion_fst, inferVersion_fst, find_first_of_append_of_mem b t '.' h]

/-! ## Serialization determines base and extension -/

theorem append_dot_inj (b1 b2 t1 t2 : List Char) (h1 : '.' ∉ t1) (h2 : '.' ∉ t2)
    (h : b1 ++ '.' :: t1 = b2 ++ '.' :: t2) : b1 = b2 ∧ t1 = t2 := by
  have hl : find_last_of (b1 ++ '.' :: t1) '.' = find_last_of (b2 ++ '.' :: t2) '.' := by rw [h]
  rw [find_last_of_append b1 t1 '.' h1, find_last_of_append b2 t2 '.' h2] at hl
  have hlen : b1.length = b2.length := by simpa using hl
  obtain ⟨hb, ht⟩ := List.append_inj h hlen
  exact ⟨hb, by simpa using ht⟩

theorem decimal_inj (m n : Nat) (h : decimal m = decimal n) : m = n := by
  rw [← digitsValue_decimal m, ← digitsValue_decimal n, h]

theorem to_string_inj (d e : Int) (hd : 0 ≤ d) (he : 0 ≤ e) (h : to_string d = to_string e) :
    d = e := by
  rw [to_string_of_nonneg d hd, to_string_of_nonneg e he] at h
  have := decimal_inj _ _ h
  omega

theorem equals_iff (a b : CorrelationVector) :
    a.equals b = true ↔ a.baseVector = b.baseVector ∧ a.extension = b.extension := by
  simp [CorrelationVector.equals]

/-! ## `parse` when the last stage is not accepted -/

theorem stoi_not_accepted (part : List Char) (hbad : notCleanInteger part) (result : Int) :
    ¬ (stoi part = StoiResult.value result part.length ∧ 0 ≤ result) := by
  rintro ⟨hst, h0⟩
  obtain ⟨hne, hdig, _, hmax, hres⟩ := stoi_value_inv part result hst
  rcases hbad with h | ⟨c, hc, hcd⟩ | h | ⟨hm, hv⟩
  · exact hne h
  · rw [hdig c hc] at hcd
    exact absurd hcd (by decide)
  · by_cases hm : hasMinus part = true
    · rw [if_pos hm] at hres
      have : (0 : Int) ≤ (digitsValue (unsignedText part) : Int) := Int.ofNat_nonneg _
      simp only [INT_MAX] at h
      omega
    · rw [if_neg hm] at hres
      omega
  · rw [if_pos hm] at hres
    have : (0 : Int) < (digitsValue (unsignedText part) : Int) := by
      exact_mod_cast Nat.pos_of_ne_zero hv
    omega

/-- The function `std::stoi` with its local values written out. -/
theorem stoi_eq (part : List Char) :
    stoi part =
      if (unsignedText part).takeWhile isdigit = [] then StoiResult.invalid_argument
      else
        if (if hasMinus part = true then
              -(digitsValue ((unsignedText part).takeWhile isdigit) : Int)
            else (digitsValue ((unsignedText part).takeWhile isdigit) : Int)) < INT_MIN ∨
            INT_MAX < (if hasMinus part = true then
              -(digitsValue ((unsignedText part).takeWhile isdigit) : Int)
            else (digitsValue ((unsignedText part).takeWhile isdigit) : Int)) then
          StoiResult.out_of_range
        else
          StoiResult.value
            (if hasMinus part = true then
              -(digitsValue ((unsignedText part).takeWhile isdigit) : Int)
            else (digitsValue ((unsignedText part).takeWhile isdigit) : Int))
            (part.length - (part.dropWhile isspace).length +
              (if (part.dropWhile isspace).head? = some '-' ∨
                (part.dropWhile isspace).head? = some '+' then 1 else 0) +
              ((unsignedText part).takeWhile isdigit).length) := rfl

/-- A part that is none of the rejected kinds is converted by `std::stoi` as a whole to a
non-negative value. -/
theorem stoi_accepts_of_clean (part : List Char) (hclean : ¬ notCleanInteger part) :
    ∃ result : Int, stoi part = StoiResult.value result part.length ∧ 0 ≤ result := by
  simp only [notCleanInteger, not_or, not_exists, not_and, not_lt] at hclean
  obtain ⟨hne, hdig, hmax, hminus⟩ := hclean
  have hall : ∀ c ∈ unsignedText part, isdigit c = true := by
    intro c hc
    have := hdig c hc
    simpa using this
  have hwhole : (unsignedText part).takeWhile isdigit = unsignedText part :=
    List.takeWhile_eq_self_iff.mpr hall
  have hbody : (part.dropWhile isspace).length ≤ part.length :=
    (List.dropWhile_suffix isspace).length_le
  have hk : (if (part.dropWhile isspace).head? = some '-' ∨
      (part.dropWhile isspace).head? = some '+' then 1 else 0) ≤
      (part.dropWhile isspace).length := by
    cases hb : part.dropWhile isspace with
    | nil => simp
    | cons c rest =>
      simp only [List.length_cons]
      split <;> omega
  have hulen : (unsignedText part).length = (part.dropWhile isspace).length -
      (if (part.dropWhile isspace).head? = some '-' ∨
        (part.dropWhile isspace).head? = some '+' then 1 else 0) := by
    simp only [unsignedText, List.length_drop]
  have hnn : (0 : Int) ≤ (digitsValue (unsignedText part) : Int) := Int.ofNat_nonneg _
  have hres : (0 : Int) ≤ (if hasMinus part = true then
        -(digitsValue (unsignedText part) : Int)
      else (digitsValue (unsignedText part) : Int)) ∧
      (if hasMinus part = true then -(digitsValue (unsignedText part) : Int)
      else (digitsValue (unsignedText part) : Int)) ≤ INT_MAX := by
    by_cases hm : hasMinus part = true
    · have hz : digitsValue (unsignedText part) = 0 := by
        by_contra hnz
        exact hminus hm hnz
      simp only [hm, if_true, hz, INT_MAX]
      omega
    · simp only [hm, if_false]
      exact ⟨hnn, hmax⟩
  refine ⟨_, ?_, hres.1⟩
  rw [stoi_eq, hwhole, if_neg hne, if_neg]
  · congr 1
    omega
  · simp only [INT_MIN, not_or, not_lt]
    refine ⟨?_, hres.2⟩
    have := hres.1
    omega

theorem parse_eq_new (guid : Guid) (b t : List Char) (ht : '.' ∉ t)
    (hno : ∀ result : Int, ¬ (stoi t = StoiResult.value result t.length ∧ 0 ≤ result)) :
    parse guid (b ++ '.' :: t) = CorrelationVector.new guid := by
  have hempty : (b ++ '.' :: t).isEmpty = false := by
    cases b <;> rfl
  by_cases hb : b = []
  · subst hb
    simp [parse, find_last_of, find_last_of_eq_none t '.' ht]
  · have hpos : 0 < b.length := List.length_pos.mpr hb
    have hp : ((b.length : Int) + 1).toNat = b.length + 1 := by omega
    have hdrop : (b ++ '.' :: t).drop (b.length + 1) = t := by
      rw [List.drop_append_eq_append_drop]
      simp
    have hgt : (0 : Int) < (b.length : Int) := by exact_mod_cast hpos
    simp only [parse, hempty, Bool.false_eq_true, if_false, find_last_of_append b t '.' ht, hgt,
      gt_iff_lt, if_true, hp, hdrop]
    cases hst : stoi t with
    | value result lastChar =>
      have hns : ¬ (lastChar = t.length ∧ result ≥ 0) := by
        rintro ⟨h1, h2⟩
        rw [h1] at hst
        exact hno result ⟨hst, h2⟩
      simp only [hns, if_false]
    | invalid_argument => rfl
    | out_of_range => rfl

theorem parse_eq_new_of_no_dot (guid : Guid) (s : List Char) (h : '.' ∉ s) :
    parse guid s = CorrelationVector.new guid := by
  unfold parse
  split
  · rfl
  · simp [find_last_of_eq_none s '.' h]

/-! ## The value `spin` appends -/

theorem spinMask_eq (totalBits : Nat) (h : totalBits ≤ 64) :
    ((if totalBits = 64 then 0 else 2 ^ totalBits % 18446744073709551616)
      + 18446744073709551615) % 18446744073709551616 = 2 ^ totalBits - 1 := by
  by_cases h64 : totalBits = 64
  · subst h64
    norm_num
  · have hlt : totalBits < 64 := by omega
    have hpow : 2 ^ totalBits < 2 ^ 64 := Nat.pow_lt_pow_right (by norm_num) hlt
    have hpos : 1 ≤ 2 ^ totalBits := Nat.one_le_two_pow
    have h64' : (2 : Nat) ^ 64 = 18446744073709551616 := by norm_num
    rw [h64'] at hpow
    rw [if_neg h64]
    generalize 2 ^ totalBits = x at hpow hpos
    omega

theorem foldStep_eq (value byte : Nat) (hb : byte < 256) :
    (value * 256 % 18446744073709551616) ||| byte = ((value <<< 8) ||| byte) % 2 ^ 64 := by
  have h64 : (18446744073709551616 : Nat) = 2 ^ 64 := by norm_num
  have h256 : value * 256 = value <<< 8 := by rw [Nat.shiftLeft_eq]
  rw [h64, h256]
  apply Nat.eq_of_testBit_eq
  intro i
  simp only [Nat.testBit_or, Nat.testBit_mod_two_pow]
  by_cases hi : i < 64
  · simp [hi]
  · have hbi : byte.testBit i = false := by
      apply Nat.testBit_lt_two_pow
      calc byte < 256 := hb
        _ = 2 ^ 8 := by norm_num
        _ ≤ 2 ^ i := Nat.pow_le_pow_right (by norm_num) (by omega)
    simp [hi, hbi]

theorem foldl_entropy_eq (bytes : List Nat) (init : Nat) (h : ∀ b ∈ bytes, b < 256) :
    bytes.foldl (fun value byte => (value * 256 % 18446744073709551616) ||| byte) init =
      bytes.foldl (fun value byte => ((value <<< 8) ||| byte) % 2 ^ 64) init := by
  induction bytes generalizing init with
  | nil => rfl
  | cons b bs ih =>
    have hb : b < 256 := h b (List.mem_cons_self b bs)
    have hbs : ∀ x ∈ bs, x < 256 := fun x hx => h x (List.mem_cons_of_mem b hx)
    simp only [List.foldl_cons]
    rw [foldStep_eq init b hb]
    exact ih _ hbs

theorem entropyOf_lt (rand : Nat → Nat) (parameters : SpinParameters) :
    ∀ b ∈ entropyOf rand parameters, b < 256 := by
  intro b hb
  simp only [entropyOf, List.mem_map] at hb
  obtain ⟨i, _, rfl⟩ := hb
  exact Nat.mod_lt _ (by norm_num)

/-- The text `spin` appends, in terms of the documented value: the low `totalBits` bits of the
folded 64-bit value, written as one segment or as two. -/
theorem spinSegment_eq (ticks : Int) (rand : Nat → Nat) (parameters : SpinParameters)
    (h : parameters.totalBits ≤ 64) :
    spinSegment ticks rand parameters =
      if parameters.totalBits > 32 then
        decimal ((foldEntropy ticks parameters.ticksBitsToDrop (entropyOf rand parameters)
            % 2 ^ parameters.totalBits) / 4294967296 % 4294967296) ++ '.' ::
          decimal ((foldEntropy ticks parameters.ticksBitsToDrop (entropyOf rand parameters)
            % 2 ^ parameters.totalBits) % 4294967296)
      else
        decimal ((foldEntropy ticks parameters.ticksBitsToDrop (entropyOf rand parameters)
          % 2 ^ parameters.totalBits) % 4294967296) := by
  have hfold := foldl_entropy_eq (entropyOf rand parameters)
    (toUInt64 (ticks / 2 ^ parameters.ticksBitsToDrop)) (entropyOf_lt rand parameters)
  have hshift : ticks >>> parameters.ticksBitsToDrop = ticks / 2 ^ parameters.ticksBitsToDrop := by
    rw [Int.shiftRight_eq_div_pow]
    norm_cast
  unfold spinSegment foldEntropy
  simp only []
  rw [spinMask_eq _ h, Nat.and_pow_two_sub_one_eq_mod, hshift]
  unfold entropyOf at hfold ⊢
  rw [hfold]

theorem filterMap_set_of_none {α β : Type} (f : α → Option β) (l : List α) (i : Nat) (x y : α)
    (hx : l[i]? = some x) (hfx : f x = none) (hfy : f y = none) :
    (l.set i y).filterMap f = l.filterMap f := by
  induction l generalizing i with
  | nil => simp at hx
  | cons a as ih =>
    cases i with
    | zero =>
      simp only [List.getElem?_cons_zero, Option.some.injEq] at hx
      subst hx
      simp [List.filterMap_cons, hfx, hfy]
    | succ j =>
      simp only [List.getElem?_cons_succ] at hx
      simp only [List.set_cons_succ, List.filterMap_cons, ih j hx]

theorem filterMap_set_of_some {α β : Type} (f : α → Option β) (l : List α) (i : Nat) (x y : α)
    (r : β) (hx : l[i]? = some x) (hfx : f x = none) (hfy : f y = some r) :
    ((l.set i y).filterMap f).Perm (r :: l.filterMap f) := by
  induction l generalizing i with
  | nil => simp at hx
  | cons a as ih =>
    cases i with
    | zero =>
      simp only [List.getElem?_cons_zero, Option.some.injEq] at hx
      subst hx
      simp [List.filterMap_cons, hfx, hfy]
    | succ j =>
      simp only [List.getElem?_cons_succ] at hx
      have h := ih j hx
      simp only [List.set_cons_succ, List.filterMap_cons]
      cases hfa : f a with
      | none => exact h
      | some b => exact (List.Perm.cons b h).trans (List.Perm.swap r b _)

theorem length_filterMap_lt {α β : Type} (f : α → Option β) (l : List α) (i : Nat) (x : α)
    (hx : l[i]? = some x) (hfx : f x = none) : (l.filterMap f).length < l.length := by
  induction l generalizing i with
  | nil => simp at hx
  | cons a as ih =>
    cases i with
    | zero =>
      simp only [List.getElem?_cons_zero, Option.some.injEq] at hx
      subst hx
      simp only [List.filterMap_cons, hfx, List.length_cons]
      have := List.length_filterMap_le f as
      omega
    | succ j =>
      simp only [List.getElem?_cons_succ] at hx
      have h := ih j hx
      simp only [List.filterMap_cons, List.length_cons]
      cases hfa : f a with
      | none => simp only []; omega
      | some b => simp only [List.length_cons]; omega

theorem length_filterMap_of_all {α β : Type} (f : α → Option β) (l : List α)
    (h : ∀ a ∈ l, (f a).isSome = true) : (l.filterMap f).length = l.length := by
  induction l with
  | nil => rfl
  | cons a as ih =>
    have ha := h a (List.mem_cons_self a as)
    have has : ∀ b ∈ as, (f b).isSome = true := fun b hb => h b (List.mem_cons_of_mem a hb)
    obtain ⟨b, hb⟩ := Option.isSome_iff_exists.mp ha
    simp [List.filterMap_cons, hb, ih has]

theorem exists_getElem?_of_not_all {α : Type} (p : α → Bool) (l : List α)
    (h : l.all p = false) : ∃ (i : Nat) (x : α), l[i]? = some x ∧ p x = false := by
  induction l with
  | nil => simp at h
  | cons a as ih =>
    by_cases ha : p a = true
    · have has : as.all p = false := by
        simpa [List.all_cons, ha] using h
      obtain ⟨i, x, hx, hp⟩ := ih has
      exact ⟨i + 1, x, by simpa using hx, hp⟩
    · exact ⟨0, a, by simp, by simpa using ha⟩

theorem digitCount_mono (a b : Int) (ha : 1 ≤ a) (hab : a ≤ b) :
    digitCount a ≤ digitCount b := by
  rw [digitCount_eq a ha, digitCount_eq b (le_trans ha hab), log10_eq_log, log10_eq_log]
  have : a.toNat ≤ b.toNat := Int.toNat_le_toNat hab
  have := Nat.log_mono_right (b := 10) this
  omega

theorem value?_eq_none_of_not_isSome (t : ThreadState) (h : t.value?.isSome = false) :
    t.value? = none := by
  cases t <;> simp_all [ThreadState.value?]

/-- What the body of the loop does with a snapshot that is below the ceilings. -/
theorem incrementCandidate_of_snapshot (cv vector : CorrelationVector) (k : Nat)
    (snapshot : Int) (h0 : 0 ≤ cv.extension) (hk : cv.extension + k ≤ INT_MAX)
    (hsize : cv.baseVector.length + 1 + digitCount (cv.extension + k)
      ≤ maxVectorLength cv.getVersion)
    (hbase : vector.baseVector = cv.baseVector)
    (hversion : vector.correlationVectorVersion = cv.correlationVectorVersion)
    (hlo : cv.extension ≤ snapshot) (hhi : snapshot < cv.extension + k) :
    ({ vector with extension := snapshot } : CorrelationVector).incrementCandidate
      = some (snapshot + 1) := by
  apply incrementCandidate_eq_some
  · simp only []
    omega
  · rw [sizeWith_eq _ _ (by simp only []; omega)]
    have hm := digitCount_mono (snapshot + 1) (cv.extension + k) (by omega) (by omega)
    simp only [CorrelationVector.getVersion, hbase, hversion] at hsize ⊢
    omega

theorem step_extension (shared : SharedVector) (i : Nat) (spurious : Bool) :
    (shared.step i spurious).vector.extension = shared.vector.extension ∨
    (shared.step i spurious).vector.extension = shared.vector.extension + 1 := by
  unfold SharedVector.step
  cases hti : shared.threads[i]? with
  | none => exact Or.inl rfl
  | some t =>
    cases t with
    | start => exact Or.inl rfl
    | returned v => exact Or.inl rfl
    | loaded snapshot =>
      simp only []
      rcases incrementCandidate_cases
        ({ shared.vector with extension := snapshot } : CorrelationVector) with
        ⟨hnone, _⟩ | ⟨hsome, _, _⟩
      · rw [hnone]
        exact Or.inl rfl
      · rw [hsome]
        simp only []
        by_cases hcas : shared.vector.extension = snapshot ∧ spurious = false
        · rw [if_pos hcas]
          right
          simp only [hcas.1]
        · rw [if_neg hcas]
          exact Or.inl rfl

/-- One atomic step of any thread keeps the invariant, as long as `k` calls stay below the
ceilings. -/
theorem step_reachedFrom (cv : CorrelationVector) (k : Nat) (shared : SharedVector) (i : Nat)
    (spurious : Bool) (h0 : 0 ≤ cv.extension) (hk : cv.extension + k ≤ INT_MAX)
    (hsize : cv.baseVector.length + 1 + digitCount (cv.extension + k)
      ≤ maxVectorLength cv.getVersion)
    (hinv : shared.reachedFrom cv k) : (shared.step i spurious).reachedFrom cv k := by
  obtain ⟨hbase, hver, hlen, ⟨d, hext, hperm⟩, hsnap⟩ := hinv
  unfold SharedVector.step
  cases hti : shared.threads[i]? with
  | none => exact ⟨hbase, hver, hlen, ⟨d, hext, hperm⟩, hsnap⟩
  | some t =>
    cases t with
    | returned v => exact ⟨hbase, hver, hlen, ⟨d, hext, hperm⟩, hsnap⟩
    | start =>
      refine ⟨hbase, hver, by simpa using hlen, ⟨d, hext, ?_⟩, ?_⟩
      · simp only [SharedVector.returnedValues]
        rw [filterMap_set_of_none ThreadState.value? _ i _
          (ThreadState.loaded shared.vector.extension) hti rfl rfl]
        exact hperm
      · intro s hs
        rcases List.mem_or_eq_of_mem_set hs with h | h
        · exact hsnap s h
        · simp only [ThreadState.loaded.injEq] at h
          subst h
          exact ⟨by omega, le_refl _⟩
    | loaded snapshot =>
      obtain ⟨hlo, hhi⟩ := hsnap snapshot (List.getElem?_mem hti)
      have hdlen : shared.returnedValues.length = d := by
        rw [hperm.length_eq]
        simp
      have hd : d < k := by
        have := length_filterMap_lt ThreadState.value? shared.threads i _ hti rfl
        simp only [SharedVector.returnedValues] at hdlen
        omega
      have hcand := incrementCandidate_of_snapshot cv shared.vector k snapshot h0 hk hsize
        hbase hver hlo (by omega)
      simp only [hcand]
      by_cases hcas : shared.vector.extension = snapshot ∧ spurious = false
      · rw [if_pos hcas]
        refine ⟨hbase, hver, by simpa using hlen, ⟨d + 1, ?_, ?_⟩, ?_⟩
        · simp only []
          push_cast
          omega
        · have hp := filterMap_set_of_some ThreadState.value? shared.threads i _
            (ThreadState.returned (shared.vector.baseVector ++ '.' :: to_string (snapshot + 1)))
            (shared.vector.baseVector ++ '.' :: to_string (snapshot + 1)) hti rfl rfl
          have hr : shared.vector.baseVector ++ '.' :: to_string (snapshot + 1)
              = cv.baseVector ++ '.' :: to_string (cv.extension + (d : Int) + 1) := by
            rw [hbase, ← hcas.1, hext]
          simp only [SharedVector.returnedValues]
          rw [List.range_succ, List.map_append, List.map_singleton, ← hr]
          exact (hp.trans (List.Perm.cons _ hperm)).trans
            (List.perm_append_singleton _ _).symm
        · intro s hs
          rcases List.mem_or_eq_of_mem_set hs with h | h
          · have := hsnap s h
            simp only []
            omega
          · exact absurd h (by simp)
      · rw [if_neg hcas]
        refine ⟨hbase, hver, by simpa using hlen, ⟨d, hext, ?_⟩, ?_⟩
        · simp only [SharedVector.returnedValues]
          rw [filterMap_set_of_none ThreadState.value? _ i _ ThreadState.start hti rfl rfl]
          exact hperm
        · intro s hs
          rcases List.mem_or_eq_of_mem_set hs with h | h
          · exact hsnap s h
          · exact absurd h (by simp)

theorem init_reachedFrom (cv : CorrelationVector) (k : Nat) :
    (SharedVector.init cv k).reachedFrom cv k := by
  refine ⟨rfl, rfl, by simp [SharedVector.init], ⟨0, by simp [SharedVector.init], ?_⟩, ?_⟩
  · have : (SharedVector.init cv k).returnedValues = [] := by
      simp only [SharedVector.returnedValues, SharedVector.init, List.filterMap_eq_nil_iff]
      intro t ht
      rw [List.eq_of_mem_replicate ht]
      rfl
    rw [this]
    simp
  · intro s hs
    simp only [SharedVector.init] at hs
    exact absurd (List.eq_of_mem_replicate hs) (by simp)

theorem run_reachedFrom (cv : CorrelationVector) (k : Nat) (shared : SharedVector)
    (schedule : List (Nat × Bool)) (h0 : 0 ≤ cv.extension) (hk : cv.extension + k ≤ INT_MAX)
    (hsize : cv.baseVector.length + 1 + digitCount (cv.extension + k)
      ≤ maxVectorLength cv.getVersion)
    (hinv : shared.reachedFrom cv k) : (shared.run schedule).reachedFrom cv k := by
  induction schedule generalizing shared with
  | nil => exact hinv
  | cons head rest ih =>
    obtain ⟨i, spurious⟩ := head
    exact ih _ (step_reachedFrom cv k shared i spurious h0 hk hsize hinv)

theorem run_append (shared : SharedVector) (first second : List (Nat × Bool)) :
    shared.run (first ++ second) = (shared.run first).run second := by
  induction first generalizing shared with
  | nil => rfl
  | cons head rest ih =>
    obtain ⟨i, spurious⟩ := head
    exact ih _

/-- When every thread has returned, the returned values are `base.(e+1) … base.(e+k)` in some
order and the counter is `e + k`. -/
theorem reachedFrom_allReturned (cv : CorrelationVector) (k : Nat) (shared : SharedVector)
    (hinv : shared.reachedFrom cv k) (hall : shared.allReturned = true) :
    shared.returnedValues.Perm
      ((List.range k).map
        (fun (i : Nat) => cv.baseVector ++ '.' :: to_string (cv.extension + (i : Int) + 1))) ∧
    shared.vector.extension = cv.extension + k := by
  obtain ⟨_, _, hlen, ⟨d, hext, hperm⟩, _⟩ := hinv
  have hdlen : shared.returnedValues.length = d := by
    rw [hperm.length_eq]
    simp
  have hk : shared.returnedValues.length = shared.threads.length := by
    apply length_filterMap_of_all
    simpa [SharedVector.allReturned] using hall
  have hdk : d = k := by omega
  subst hdk
  exact ⟨hperm, hext⟩

theorem step_of_start (shared : SharedVector) (i : Nat) (spurious : Bool)
    (hti : shared.threads[i]? = some ThreadState.start) :
    shared.step i spurious =
      ⟨shared.vector, shared.threads.set i (ThreadState.loaded shared.vector.extension)⟩ := by
  simp only [SharedVector.step, hti]

theorem step_of_loaded_success (shared : SharedVector) (i : Nat) (snapshot next : Int)
    (hti : shared.threads[i]? = some (ThreadState.loaded snapshot))
    (hcand : ({ shared.vector with extension := snapshot } :
      CorrelationVector).incrementCandidate = some next)
    (hsame : shared.vector.extension = snapshot) :
    shared.step i false =
      ⟨{ shared.vector with extension := next },
        shared.threads.set i
          (ThreadState.returned (shared.vector.baseVector ++ '.' :: to_string next))⟩ := by
  simp only [SharedVector.step, hti, hcand, hsame, and_self, if_true]

theorem step_of_loaded_stale (shared : SharedVector) (i : Nat) (snapshot next : Int)
    (spurious : Bool) (hti : shared.threads[i]? = some (ThreadState.loaded snapshot))
    (hcand : ({ shared.vector with extension := snapshot } :
      CorrelationVector).incrementCandidate = some next)
    (hstale : shared.vector.extension ≠ snapshot) :
    shared.step i spurious = ⟨shared.vector, shared.threads.set i ThreadState.start⟩ := by
  simp only [SharedVector.step, hti, hcand, hstale, false_and, if_false]

theorem returnedValues_length_lt (cv : CorrelationVector) (k : Nat) (shared : SharedVector)
    (i : Nat) (t : ThreadState) (hinv : shared.reachedFrom cv k)
    (hti : shared.threads[i]? = some t) (ht : t.value? = none) :
    shared.vector.extension < cv.extension + k := by
  obtain ⟨_, _, hlen, ⟨d, hext, hperm⟩, _⟩ := hinv
  have hdlen : shared.returnedValues.length = d := by
    rw [hperm.length_eq]
    simp
  have := length_filterMap_lt ThreadState.value? shared.threads i t hti ht
  simp only [SharedVector.returnedValues] at hdlen
  omega

theorem length_returned_set (threads : List ThreadState) (i : Nat) (x : ThreadState)
    (value : List Char) (hti : threads[i]? = some x) (hx : x.value? = none) :
    ((threads.set i (ThreadState.returned value)).filterMap ThreadState.value?).length
      = (threads.filterMap ThreadState.value?).length + 1 := by
  have h := (filterMap_set_of_some ThreadState.value? threads i x (ThreadState.returned value)
    value hti hx rfl).length_eq
  simpa using h

/-- A thread at the start of the loop returns after two steps of its own. -/
theorem finish_from_start (cv : CorrelationVector) (k : Nat) (shared : SharedVector) (i : Nat)
    (h0 : 0 ≤ cv.extension) (hk : cv.extension + k ≤ INT_MAX)
    (hsize : cv.baseVector.length + 1 + digitCount (cv.extension + k)
      ≤ maxVectorLength cv.getVersion)
    (hinv : shared.reachedFrom cv k) (hti : shared.threads[i]? = some ThreadState.start) :
    (shared.run [(i, false), (i, false)]).returnedValues.length
      = shared.returnedValues.length + 1 := by
  have hlt := returnedValues_length_lt cv k shared i _ hinv hti rfl
  have hi : i < shared.threads.length := (List.getElem?_eq_some.mp hti).1
  obtain ⟨hbase, hver, _, ⟨d, hext, _⟩, _⟩ := hinv
  have hti2 : (shared.threads.set i (ThreadState.loaded shared.vector.extension))[i]?
      = some (ThreadState.loaded shared.vector.extension) := List.getElem?_set_self hi
  have hcand := incrementCandidate_of_snapshot cv shared.vector k shared.vector.extension h0 hk
    hsize hbase hver (by omega) hlt
  have hti0 : (shared.threads.set i (ThreadState.loaded shared.vector.extension))[i]?
      = some (ThreadState.loaded shared.vector.extension) := hti2
  simp only [SharedVector.run]
  rw [step_of_start shared i false hti,
    step_of_loaded_success ⟨shared.vector, _⟩ i shared.vector.extension _ hti2 hcand rfl]
  simp only [SharedVector.returnedValues, List.set_set]
  exact length_returned_set shared.threads i _ _ hti rfl

/-- Any thread that has not returned can be run until it returns. -/
theorem finish_thread (cv : CorrelationVector) (k : Nat) (shared : SharedVector) (i : Nat)
    (t : ThreadState) (h0 : 0 ≤ cv.extension) (hk : cv.extension + k ≤ INT_MAX)
    (hsize : cv.baseVector.length + 1 + digitCount (cv.extension + k)
      ≤ maxVectorLength cv.getVersion)
    (hinv : shared.reachedFrom cv k) (hti : shared.threads[i]? = some t)
    (ht : t.value? = none) :
    ∃ schedule, (shared.run schedule).returnedValues.length
      = shared.returnedValues.length + 1 := by
  have hi : i < shared.threads.length := (List.getElem?_eq_some.mp hti).1
  cases t with
  | returned v => simp [ThreadState.value?] at ht
  | start => exact ⟨_, finish_from_start cv k shared i h0 hk hsize hinv hti⟩
  | loaded snapshot =>
    have hlt := returnedValues_length_lt cv k shared i _ hinv hti rfl
    have hsnap := hinv.2.2.2.2 snapshot (List.getElem?_mem hti)
    have hcand := incrementCandidate_of_snapshot cv shared.vector k snapshot h0 hk hsize
      hinv.1 hinv.2.1 hsnap.1 (by omega)
    by_cases hsame : shared.vector.extension = snapshot
    · refine ⟨[(i, false)], ?_⟩
      simp only [SharedVector.run]
      rw [step_of_loaded_success shared i snapshot _ hti hcand hsame]
      simp only [SharedVector.returnedValues]
      exact length_returned_set shared.threads i _ _ hti rfl
    · have hstep := step_of_loaded_stale shared i snapshot _ false hti hcand hsame
      have hinv2 := step_reachedFrom cv k shared i false h0 hk hsize hinv
      have hti2 : (shared.step i false).threads[i]? = some ThreadState.start := by
        rw [hstep]
        exact List.getElem?_set_self hi
      have hfin := finish_from_start cv k (shared.step i false) i h0 hk hsize hinv2 hti2
      refine ⟨(i, false) :: [(i, false), (i, false)], ?_⟩
      have hsame_len : (shared.step i false).returnedValues.length
          = shared.returnedValues.length := by
        rw [hstep]
        simp only [SharedVector.returnedValues]
        rw [filterMap_set_of_none ThreadState.value? _ i _ ThreadState.start hti rfl rfl]
      rw [← hsame_len, ← hfin]
      rfl

/-- From every state reached below the ceilings some continuation lets every thread return. -/
theorem exists_completion (cv : CorrelationVector) (k : Nat) (n : Nat) (shared : SharedVector)
    (h0 : 0 ≤ cv.extension) (hk : cv.extension + k ≤ INT_MAX)
    (hsize : cv.baseVector.length + 1 + digitCount (cv.extension + k)
      ≤ maxVectorLength cv.getVersion)
    (hinv : shared.reachedFrom cv k)
    (hn : shared.threads.length - shared.returnedValues.length = n) :
    ∃ schedule, (shared.run schedule).allReturned = true := by
  induction n generalizing shared with
  | zero =>
    refine ⟨[], ?_⟩
    by_contra hnot
    rw [Bool.not_eq_true] at hnot
    obtain ⟨i, t, hti, ht⟩ := exists_getElem?_of_not_all _ _ hnot
    have := length_filterMap_lt ThreadState.value? shared.threads i t hti
      (value?_eq_none_of_not_isSome t ht)
    simp only [SharedVector.returnedValues] at hn
    omega
  | succ n ih =>
    have hnot : shared.allReturned = false := by
      by_contra hall
      rw [Bool.not_eq_false] at hall
      have := length_filterMap_of_all ThreadState.value? shared.threads
        (by simpa [SharedVector.allReturned] using hall)
      simp only [SharedVector.returnedValues] at hn
      omega
    obtain ⟨i, t, hti, ht⟩ := exists_getElem?_of_not_all _ _ hnot
    obtain ⟨first, hfirst⟩ := finish_thread cv k shared i t h0 hk hsize hinv hti
      (value?_eq_none_of_not_isSome t ht)
    have hinv2 := run_reachedFrom cv k shared first h0 hk hsize hinv
    have hlen : (shared.run first).threads.length = shared.threads.length := by
      rw [hinv2.2.2.1, hinv.2.2.1]
    obtain ⟨second, hsecond⟩ := ih (shared.run first) hinv2 (by omega)
    exact ⟨first ++ second, by rw [run_append]; exact hsecond⟩

theorem nodup_values (cv : CorrelationVector) (k : Nat) (h0 : 0 ≤ cv.extension) :
    ((List.range k).map
      (fun (i : Nat) => cv.baseVector ++ '.' :: to_string (cv.extension + (i : Int) + 1))).Nodup := by
  apply List.Nodup.map _ (List.nodup_range k)
  intro i j hij
  simp only [List.append_cancel_left_eq, List.cons.injEq, true_and] at hij
  have := to_string_inj _ _ (by omega) (by omega) hij
  omega

/-- With a single thread and no spurious failure the interleaving model is the sequential
`increment`. -/
theorem run_single_thread (cv : CorrelationVector) :
    (SharedVector.init cv 1).run [(0, false), (0, false)] =
      ⟨cv.increment.2, [ThreadState.returned cv.increment.1]⟩ := by
  rcases incrementCandidate_cases cv with ⟨hnone, _⟩ | ⟨hsome, _, _⟩
  · rw [increment_of_none cv hnone]
    simp [SharedVector.run, SharedVector.step, SharedVector.init, hnone]
  · rw [increment_of_some cv _ hsome]
    simp [SharedVector.run, SharedVector.step, SharedVector.init, hsome]

/-! ## The claims -/

/-- C1: for every 16-character base `b` and every extension `e` with `0 ≤ e ≤ INT_MAX`, parsing
`b + "." + decimal(e)` gives the vector with base `b` and extension `e`, and `getValue` of it
is the parsed string again. -/
theorem parse_getValue_roundtrip (guid : Guid) (b : List Char) (e : Int)
    (hb : b.length = BASE_LENGTH) (h0 : 0 ≤ e) (hmax : e ≤ INT_MAX) :
    (parse guid (b ++ '.' :: to_string e)).getValue = b ++ '.' :: to_string e ∧
    (parse guid (b ++ '.' :: to_string e)).baseVector = b ∧
    (parse guid (b ++ '.' :: to_string e)).extension = e := by
  have hne : b ≠ [] := by
    intro h
    rw [h] at hb
    exact absurd hb (by decide)
  rw [parse_append guid b (to_string e) e hne (dot_not_mem_to_string e h0)
    (stoi_to_string e h0 hmax) h0]
  exact ⟨rfl, rfl, rfl⟩

/-- C1, witness: the base `ABCDEFGHIJKLMNOP` with extension 42. -/
theorem parse_getValue_roundtrip_witness :
    (String.toList "ABCDEFGHIJKLMNOP").length = BASE_LENGTH ∧ (0 : Int) ≤ 42 ∧
    (42 : Int) ≤ INT_MAX ∧
    (parse ⟨fun _ => []⟩ (String.toList "ABCDEFGHIJKLMNOP" ++ '.' :: to_string 42)).getValue
      = String.toList "ABCDEFGHIJKLMNOP" ++ '.' :: to_string 42 :=
  ⟨by decide, by decide, by decide,
    (parse_getValue_roundtrip ⟨fun _ => []⟩ (String.toList "ABCDEFGHIJKLMNOP") 42
      (by decide) (by decide) (by decide)).1⟩

/-- C2: for every input string `x` and either setting of the validate-on-creation flag, `extend`
returns a vector with base `x`, extension `0` and the version `inferVersion` gives for `x`; its
value is `x` followed by `.0`, and the vector is the same for both settings of the flag. -/
theorem extend_base_verbatim (validateDuringCreation : Bool) (x : List Char) :
    (extend validateDuringCreation x).1.baseVector = x ∧
    (extend validateDuringCreation x).1.extension = 0 ∧
    (extend validateDuringCreation x).1.getVersion = (inferVersion x validateDuringCreation).1 ∧
    (extend validateDuringCreation x).1.getValue = x ++ String.toList ".0" ∧
    (extend true x).1 = (extend false x).1 := by
  refine ⟨rfl, rfl, rfl, rfl, ?_⟩
  simp only [extend, inferVersion_fst_irrel x true]

/-- C3, counterexample: on the fresh V1 vector with base `ABCDEFGHIJKLMNOP` the 2147483648-th
sequential call of `increment` returns `ABCDEFGHIJKLMNOP.2147483647`, which is not
`ABCDEFGHIJKLMNOP.2147483648`. -/
theorem increment_sequence_counterexample :
    ((⟨String.toList "ABCDEFGHIJKLMNOP", 0, CorrelationVectorVersion.V1⟩ :
        CorrelationVector).incrementMany 2147483648).1.getLast?
      = some (String.toList "ABCDEFGHIJKLMNOP.2147483647") ∧
    String.toList "ABCDEFGHIJKLMNOP.2147483647"
      ≠ String.toList "ABCDEFGHIJKLMNOP" ++ '.' :: to_string 2147483648 := by
  refine ⟨?_, by decide⟩
  have hstate : ((⟨String.toList "ABCDEFGHIJKLMNOP", 0, CorrelationVectorVersion.V1⟩ :
      CorrelationVector).incrementMany 2147483647).2
      = ⟨String.toList "ABCDEFGHIJKLMNOP", 2147483647, CorrelationVectorVersion.V1⟩ := by
    rw [incrementMany_advance _ 2147483647 (by decide) (by decide) (by decide)]
    rfl
  have hsnoc := incrementMany_snoc
    (⟨String.toList "ABCDEFGHIJKLMNOP", 0, CorrelationVectorVersion.V1⟩ : CorrelationVector)
    2147483647
  rw [hstate, increment_of_none _ (incrementCandidate_eq_none _ (Or.inl rfl))] at hsnoc
  have hlit : (2147483648 : Nat) = 2147483647 + 1 := rfl
  rw [hlit, hsnoc, List.getLast?_append]
  rfl

/-- C3, amended: for every version `v`, every fresh vector of version `v` (extension 0, base `b`
of length `BASE_LENGTH(v)`) and every `n ≤ INT_MAX`, `n` sequential calls of `increment` return
`b.1, b.2, ..., b.n` in that order. -/
theorem increment_sequence (version : CorrelationVectorVersion) (b : List Char) (n : Nat)
    (hb : b.length = baseLength version) (hn : (n : Int) ≤ INT_MAX) :
    ((⟨b, 0, version⟩ : CorrelationVector).incrementMany n).1 =
      (List.range n).map (fun (i : Nat) => b ++ '.' :: to_string ((i : Int) + 1)) := by
  have hlen : (⟨b, 0, version⟩ : CorrelationVector).baseVector.length + 11 ≤
      maxVectorLength (⟨b, 0, version⟩ : CorrelationVector).getVersion := by
    cases version <;> simp [CorrelationVector.getVersion, maxVectorLength, hb, baseLength,
      BASE_LENGTH, BASE_LENGTH_V2, MAX_VECTOR_LENGTH, MAX_VECTOR_LENGTH_V2]
  rw [incrementMany_advance _ n (le_refl _) (by simpa using hn) hlen]
  simp

/-- C3, witness: three calls on the fresh V1 vector with base `ABCDEFGHIJKLMNOP`. -/
theorem increment_sequence_witness :
    (String.toList "ABCDEFGHIJKLMNOP").length = baseLength CorrelationVectorVersion.V1 ∧
    ((3 : Nat) : Int) ≤ INT_MAX ∧
    ((⟨String.toList "ABCDEFGHIJKLMNOP", 0, CorrelationVectorVersion.V1⟩ :
        CorrelationVector).incrementMany 3).1 =
      (List.range 3).map
        (fun (i : Nat) => String.toList "ABCDEFGHIJKLMNOP" ++ '.' :: to_string ((i : Int) + 1)) :=
  ⟨by decide, by decide,
    increment_sequence CorrelationVectorVersion.V1 (String.toList "ABCDEFGHIJKLMNOP") 3
      (by decide) (by decide)⟩

/-- C4: for every vector with extension `e ≥ 0`, if `e < INT_MAX` and
`len(base) + 1 + digitCount(e+1) ≤ MAX_VECTOR_LENGTH(version)`, one sequential `increment` sets
the extension to `e+1` and returns `base + "." + decimal(e+1)`; in every case the returned string
is `getValue()` of the vector after the call, and base and version are unchanged. -/
theorem increment_advances (cv : CorrelationVector) (h0 : 0 ≤ cv.extension) :
    (cv.extension < INT_MAX →
      cv.baseVector.length + 1 + digitCount (cv.extension + 1) ≤ maxVectorLength cv.getVersion →
      cv.increment.2.extension = cv.extension + 1 ∧
      cv.increment.1 = cv.baseVector ++ '.' :: to_string (cv.extension + 1)) ∧
    cv.increment.1 = cv.increment.2.getValue ∧
    cv.increment.2.baseVector = cv.baseVector ∧
    cv.increment.2.getVersion = cv.getVersion := by
  refine ⟨?_, ?_⟩
  · intro hlt hsize
    rw [← sizeWith_eq cv _ (by omega)] at hsize
    rw [increment_of_some cv _ (incrementCandidate_eq_some cv (ne_of_lt hlt) hsize)]
    exact ⟨rfl, rfl⟩
  · rcases incrementCandidate_cases cv with ⟨hnone, _⟩ | ⟨hsome, _, _⟩
    · rw [increment_of_none cv hnone]
      exact ⟨rfl, rfl, rfl⟩
    · rw [increment_of_some cv _ hsome]
      exact ⟨rfl, rfl, rfl⟩

/-- C4, witness: the V1 vector `ABCDEFGHIJKLMNOP.9` advances to `ABCDEFGHIJKLMNOP.10`. -/
theorem increment_advances_witness :
    (0 : Int) ≤ (⟨String.toList "ABCDEFGHIJKLMNOP", 9, CorrelationVectorVersion.V1⟩ :
      CorrelationVector).extension ∧
    (⟨String.toList "ABCDEFGHIJKLMNOP", 9, CorrelationVectorVersion.V1⟩ :
      CorrelationVector).increment.2.extension = 9 + 1 ∧
    (⟨String.toList "ABCDEFGHIJKLMNOP", 9, CorrelationVectorVersion.V1⟩ :
      CorrelationVector).increment.1 = String.toList "ABCDEFGHIJKLMNOP" ++ '.' :: to_string (9 + 1) :=
  ⟨by decide,
    (increment_advances ⟨String.toList "ABCDEFGHIJKLMNOP", 9, CorrelationVectorVersion.V1⟩
      (by decide)).1 (by decide) (by decide)⟩

/-- C5: for every vector with extension `e ≥ 0` for which a stopping condition holds
(`e = INT_MAX`, or `len(base) + 1 + digitCount(e+1) > MAX_VECTOR_LENGTH(version)`), `increment`
returns the current `getValue()` and leaves the vector unchanged, and so does every further
sequence of `increment` calls. -/
theorem increment_saturated (cv : CorrelationVector) (n : Nat) (h0 : 0 ≤ cv.extension)
    (hstop : cv.extension = INT_MAX ∨
      cv.baseVector.length + 1 + digitCount (cv.extension + 1) > maxVectorLength cv.getVersion) :
    cv.increment = (cv.getValue, cv) ∧
    cv.incrementMany n = (List.replicate n cv.getValue, cv) := by
  rw [← sizeWith_eq cv _ (by omega)] at hstop
  have hnone := incrementCandidate_eq_none cv hstop
  exact ⟨increment_of_none cv hnone, incrementMany_of_none cv hnone n⟩

/-- C5, witness: the V1 vector `ABCDEFGHIJKLMNOP.2147483647` is saturated. -/
theorem increment_saturated_witness :
    (0 : Int) ≤ (⟨String.toList "ABCDEFGHIJKLMNOP", 2147483647, CorrelationVectorVersion.V1⟩ :
      CorrelationVector).extension ∧
    (⟨String.toList "ABCDEFGHIJKLMNOP", 2147483647, CorrelationVectorVersion.V1⟩ :
      CorrelationVector).incrementMany 2 =
      (List.replicate 2 (⟨String.toList "ABCDEFGHIJKLMNOP", 2147483647,
        CorrelationVectorVersion.V1⟩ : CorrelationVector).getValue,
        ⟨String.toList "ABCDEFGHIJKLMNOP", 2147483647, CorrelationVectorVersion.V1⟩) :=
  ⟨by decide,
    (increment_saturated ⟨String.toList "ABCDEFGHIJKLMNOP", 2147483647,
      CorrelationVectorVersion.V1⟩ 2 (by decide) (Or.inl rfl)).2⟩

/-- C6: the code at the failing input.  The 62-character string `ABCDEFGHIJKLMNOP.1.1.….1`
passes `validate` for its inferred version V1; the V1 vector `extend` makes of it has a value
of 64 characters, and the V1 vector `spin` makes of it (clock reading 16000000000000000, entropy
bytes 77 and 78, 24 bits dropped, 40 bits in total) has the base
`ABCDEFGHIJKLMNOP.1.1.….1.215.3930869070` and a value of 79 characters, both above
`MAX_VECTOR_LENGTH` = 63, which `validate` and `increment` enforce. -/
theorem extend_spin_exceed_budget :
    validate (String.toList "ABCDEFGHIJKLMNOP.1.1.1.1.1.1.1.1.1.1.1.1.1.1.1.1.1.1.1.1.1.1.1")
      (inferVersion (String.toList "ABCDEFGHIJKLMNOP.1.1.1.1.1.1.1.1.1.1.1.1.1.1.1.1.1.1.1.1.1.1.1") false).1 = [] ∧
    (extend true (String.toList "ABCDEFGHIJKLMNOP.1.1.1.1.1.1.1.1.1.1.1.1.1.1.1.1.1.1.1.1.1.1.1")).1.getVersion
      = CorrelationVectorVersion.V1 ∧
    (extend true (String.toList "ABCDEFGHIJKLMNOP.1.1.1.1.1.1.1.1.1.1.1.1.1.1.1.1.1.1.1.1.1.1.1")).1.getValue.length
      = 64 ∧
    (spin true 16000000000000000 (fun i => 77 + i)
      (String.toList "ABCDEFGHIJKLMNOP.1.1.1.1.1.1.1.1.1.1.1.1.1.1.1.1.1.1.1.1.1.1.1")
      ⟨2, 24, 40⟩).1.getVersion = CorrelationVectorVersion.V1 ∧
    (spin true 16000000000000000 (fun i => 77 + i)
      (String.toList "ABCDEFGHIJKLMNOP.1.1.1.1.1.1.1.1.1.1.1.1.1.1.1.1.1.1.1.1.1.1.1")
      ⟨2, 24, 40⟩).1.baseVector
      = String.toList "ABCDEFGHIJKLMNOP.1.1.1.1.1.1.1.1.1.1.1.1.1.1.1.1.1.1.1.1.1.1.1.215.3930869070" ∧
    (spin true 16000000000000000 (fun i => 77 + i)
      (String.toList "ABCDEFGHIJKLMNOP.1.1.1.1.1.1.1.1.1.1.1.1.1.1.1.1.1.1.1.1.1.1.1")
      ⟨2, 24, 40⟩).1.getValue.length = 79 ∧
    ¬ (64 ≤ maxVectorLength CorrelationVectorVersion.V1) ∧
    ¬ (79 ≤ maxVectorLength CorrelationVectorVersion.V1) ∧
    validate (extend true (String.toList "ABCDEFGHIJKLMNOP.1.1.1.1.1.1.1.1.1.1.1.1.1.1.1.1.1.1.1.1.1.1.1")).1.getValue
      CorrelationVectorVersion.V1 ≠ [] := by
  decide

/-- C7: for every vector with `0 ≤ extension ≤ INT_MAX` and
`len(getValue()) ≤ MAX_VECTOR_LENGTH(version)`, after any number `n` of sequential `increment`
calls the extension is not below what it was after any smaller number of calls, is still
`≤ INT_MAX`, and `len(getValue()) ≤ MAX_VECTOR_LENGTH(version)`; and when the next call advances,
the size computed in its check is the length of the string it returns. -/
theorem increment_keeps_budgets (cv : CorrelationVector) (n : Nat) (h0 : 0 ≤ cv.extension)
    (hmax : cv.extension ≤ INT_MAX)
    (hfit : cv.getValue.length ≤ maxVectorLength cv.getVersion) :
    (∀ m, m ≤ n → (cv.incrementMany m).2.extension ≤ (cv.incrementMany n).2.extension) ∧
    0 ≤ (cv.incrementMany n).2.extension ∧
    (cv.incrementMany n).2.extension ≤ INT_MAX ∧
    (cv.incrementMany n).2.getValue.length ≤ maxVectorLength (cv.incrementMany n).2.getVersion ∧
    (∀ next, (cv.incrementMany n).2.incrementCandidate = some next →
      (cv.incrementMany n).2.sizeWith next = (cv.incrementMany n).2.increment.1.length) := by
  obtain ⟨h1, h2, h3⟩ := incrementMany_invariant cv n h0 hmax hfit
  refine ⟨?_, le_trans h0 h1, h2, h3, ?_⟩
  · intro m hm
    obtain ⟨k, rfl⟩ := Nat.exists_eq_add_of_le hm
    obtain ⟨m1, m2, m3⟩ := incrementMany_invariant cv m h0 hmax hfit
    rw [incrementMany_add]
    exact (incrementMany_invariant (cv.incrementMany m).2 k (le_trans h0 m1) m2 m3).1
  · intro next hnext
    rcases incrementCandidate_cases (cv.incrementMany n).2 with ⟨hnone, _⟩ | ⟨hsome, _, _⟩
    · rw [hnone] at hnext
      exact absurd hnext (by simp)
    · rw [hsome] at hnext
      cases hnext
      rw [increment_of_some _ _ hsome, sizeWith_eq _ _ (by have := le_trans h0 h1; omega)]
      exact (length_append_to_string _ _).symm

/-- C7, witness: three calls on the V1 vector `ABCDEFGHIJKLMNOP.8`. -/
theorem increment_keeps_budgets_witness :
    (0 : Int) ≤ (⟨String.toList "ABCDEFGHIJKLMNOP", 8, CorrelationVectorVersion.V1⟩ :
      CorrelationVector).extension ∧
    ((⟨String.toList "ABCDEFGHIJKLMNOP", 8, CorrelationVectorVersion.V1⟩ :
      CorrelationVector).incrementMany 3).2.extension ≤ INT_MAX :=
  ⟨by decide,
    (increment_keeps_budgets ⟨String.toList "ABCDEFGHIJKLMNOP", 8, CorrelationVectorVersion.V1⟩ 3
      (by decide) (by decide) (by decide)).2.2.1⟩

/-- C8, counterexample: the part `+1` of `ABCDEFGHIJKLMNOP.+1` is not written with digits only,
and `validate` against V1 reports nothing. -/
theorem validate_extension_counterexample :
    String.toList "+1" ∈ (split_str (String.toList "ABCDEFGHIJKLMNOP.+1") '.').tail ∧
    (∃ c ∈ String.toList "+1", isdigit c = false) ∧
    validate (String.toList "ABCDEFGHIJKLMNOP.+1") CorrelationVectorVersion.V1 = [] := by
  decide

/-- C8, amended: `validate` reports a failure for every string `s` and version `v` in which some
dot-separated part after the first, once its leading white space and one optional sign are
removed, is empty, contains a character that is not a decimal digit, or spells a value above
`INT_MAX`, or which has a `-` sign in front of a value other than zero.  A part that is none of
these does not make `validate` fail: a string that is not empty or blank, is within the maximal
length, and has at least two parts with a first part of the base length, is accepted when no
part after the first is of these kinds.  So a leading `+`, leading white space or `-0` is
accepted: `ABCDEFGHIJKLMNOP.+1`, `ABCDEFGHIJKLMNOP. 1` and `ABCDEFGHIJKLMNOP.-0` pass against
V1. -/
theorem validate_rejects_bad_extension (s : List Char) (version : CorrelationVectorVersion) :
    (∀ part ∈ (split_str s '.').tail,
      (unsignedText part = [] ∨ (∃ c ∈ unsignedText part, isdigit c = false) ∨
        INT_MAX < (digitsValue (unsignedText part) : Int) ∨
        (hasMinus part = true ∧ digitsValue (unsignedText part) ≠ 0)) →
      ∃ message, validate s version = [message]) ∧
    (isEmptyOrWhiteSpace s = false → s.length ≤ maxVectorLength version →
      2 ≤ (split_str s '.').length →
      ((split_str s '.').headD []).length = baseLength version →
      (∀ part ∈ (split_str s '.').tail,
        ¬ (unsignedText part = [] ∨ (∃ c ∈ unsignedText part, isdigit c = false) ∨
          INT_MAX < (digitsValue (unsignedText part) : Int) ∨
          (hasMinus part = true ∧ digitsValue (unsignedText part) ≠ 0))) →
      validate s version = []) ∧
    validate (String.toList "ABCDEFGHIJKLMNOP.+1") CorrelationVectorVersion.V1 = [] ∧
    validate (String.toList "ABCDEFGHIJKLMNOP. 1") CorrelationVectorVersion.V1 = [] ∧
    validate (String.toList "ABCDEFGHIJKLMNOP.-0") CorrelationVectorVersion.V1 = [] := by
  refine ⟨?_, ?_, by decide, by decide, by decide⟩
  · intro part hmem hbad
    apply validate_reports_one
    intro hnil
    obtain ⟨_, _, _, _, hparts⟩ := (validate_eq_nil_iff s version).mp hnil
    obtain ⟨result, hst, h0⟩ := hparts part hmem
    exact stoi_not_accepted part hbad result ⟨hst, h0⟩
  · intro hblank hlen hparts hhead hclean
    exact (validate_eq_nil_iff s version).mpr
      ⟨hblank, hlen, hparts, hhead, fun part hmem => stoi_accepts_of_clean part (hclean part hmem)⟩

/-- C8, witness: `ABCDEFGHIJKLMNOP.-1` against V1 is reported, and `ABCDEFGHIJKLMNOP.+007`
against V1 is accepted. -/
theorem validate_rejects_bad_extension_witness :
    (String.toList "-1" ∈ (split_str (String.toList "ABCDEFGHIJKLMNOP.-1") '.').tail ∧
      (hasMinus (String.toList "-1") = true ∧
        digitsValue (unsignedText (String.toList "-1")) ≠ 0) ∧
      ∃ message,
        validate (String.toList "ABCDEFGHIJKLMNOP.-1") CorrelationVectorVersion.V1 = [message]) ∧
    validate (String.toList "ABCDEFGHIJKLMNOP.+007") CorrelationVectorVersion.V1 = [] :=
  ⟨⟨by decide, by decide,
    (validate_rejects_bad_extension (String.toList "ABCDEFGHIJKLMNOP.-1")
      CorrelationVectorVersion.V1).1 (String.toList "-1") (by decide)
      (Or.inr (Or.inr (Or.inr (by decide))))⟩,
    (validate_rejects_bad_extension (String.toList "ABCDEFGHIJKLMNOP.+007")
      CorrelationVectorVersion.V1).2.1 (by decide) (by decide) (by decide) (by decide)
      (by decide)⟩

/-- C9: `validate` reports a failure for every string `s` and version `v` such that `s` is empty,
`s` consists only of white space, `len(s) > maxLength(v)`, splitting `s` on `.` yields fewer than
2 parts, or the first part has a length other than `baseLength(v)`. -/
theorem validate_rejects_malformed (s : List Char) (version : CorrelationVectorVersion)
    (h : s = [] ∨ (∀ c ∈ s, isspace c = true) ∨ maxVectorLength version < s.length ∨
      (split_str s '.').length < 2 ∨
      ((split_str s '.').headD []).length ≠ baseLength version) :
    ∃ message, validate s version = [message] := by
  apply validate_reports_one
  intro hnil
  obtain ⟨ha, hb, hc, hd, _⟩ := (validate_eq_nil_iff s version).mp hnil
  rcases h with h | h | h | h | h
  · rw [h] at ha
    exact absurd ha (by decide)
  · have hdot : '.' ∉ s := fun hm => absurd (h '.' hm) (by decide)
    rw [split_str_of_not_mem s '.' hdot] at hc
    simp at hc
  · omega
  · omega
  · exact h hd

/-- C9, witness: a V1 string of 67 characters is reported. -/
theorem validate_rejects_malformed_witness :
    maxVectorLength CorrelationVectorVersion.V1 <
      (String.toList
        "ABCDEFGHIJKLMNOP.1.2.3.4.5.6.7.8.9.10.11.12.13.14.15.16.17.18.19.20").length ∧
    ∃ message, validate (String.toList
        "ABCDEFGHIJKLMNOP.1.2.3.4.5.6.7.8.9.10.11.12.13.14.15.16.17.18.19.20")
      CorrelationVectorVersion.V1 = [message] :=
  ⟨by decide,
    validate_rejects_malformed _ CorrelationVectorVersion.V1 (Or.inr (Or.inr (Or.inl (by decide))))⟩

/-- C10: for every version `v`, every base of exactly `baseLength(v)` characters without a `.`,
and every non-empty list of integers `e1..ek` with `0 ≤ ei ≤ INT_MAX`, if the string
`base.e1.….ek` is at most `maxLength(v)` characters long then `validate` reports nothing. -/
theorem validate_accepts_wellformed (version : CorrelationVectorVersion) (base : List Char)
    (es : List Int) (hbase : base.length = baseLength version) (hdot : '.' ∉ base)
    (hne : es ≠ []) (hrange : ∀ e ∈ es, 0 ≤ e ∧ e ≤ INT_MAX)
    (hlen : (base ++ dotted es).length ≤ maxVectorLength version) :
    validate (base ++ dotted es) version = [] := by
  obtain ⟨e, rest, rfl⟩ := List.exists_cons_of_ne_nil hne
  have he := hrange e (List.mem_cons_self e rest)
  have hrest : ∀ x ∈ rest, 0 ≤ x := fun x hx => (hrange x (List.mem_cons_of_mem e hx)).1
  have hsplit : split_str (base ++ dotted (e :: rest)) '.' =
      base :: (e :: rest).map to_string := by
    simp only [dotted, List.map_cons]
    rw [split_str_append base _ '.' hdot, split_str_dotted e rest he.1 hrest]
  rw [validate_eq_nil_iff, hsplit]
  refine ⟨isEmptyOrWhiteSpace_of_dot_mem _ (by simp [dotted]), hlen, by simp, by simpa using hbase,
    ?_⟩
  intro part hpart
  simp only [List.tail_cons, List.mem_map] at hpart
  obtain ⟨x, hx, rfl⟩ := hpart
  exact ⟨x, stoi_to_string x (hrange x hx).1 (hrange x hx).2, (hrange x hx).1⟩

/-- C10, witness: `ABCDEFGHIJKLMNOP.1` against V1 is accepted. -/
theorem validate_accepts_wellformed_witness :
    (String.toList "ABCDEFGHIJKLMNOP").length = baseLength CorrelationVectorVersion.V1 ∧
    '.' ∉ String.toList "ABCDEFGHIJKLMNOP" ∧
    String.toList "ABCDEFGHIJKLMNOP" ++ dotted [1] = String.toList "ABCDEFGHIJKLMNOP.1" ∧
    validate (String.toList "ABCDEFGHIJKLMNOP" ++ dotted [1]) CorrelationVectorVersion.V1 = [] :=
  ⟨by decide, by decide, by decide,
    validate_accepts_wellformed CorrelationVectorVersion.V1 (String.toList "ABCDEFGHIJKLMNOP") [1]
      (by decide) (by decide) (by decide) (by decide) (by decide)⟩

/-- C11: for every string `s` and either value of `reportErrors`, `inferVersion` returns V2 if
and only if the first `.` of `s` is at index 22, and V1 otherwise (first `.` at index 16 or at
any other index, no `.`, or `s` empty); the version does not depend on `reportErrors`. -/
theorem inferVersion_by_first_dot (s : List Char) (reportErrors : Bool) :
    ((inferVersion s reportErrors).1 = CorrelationVectorVersion.V2 ↔
      ∃ b t, s = b ++ '.' :: t ∧ '.' ∉ b ∧ b.length = 22) ∧
    ((inferVersion s reportErrors).1 = CorrelationVectorVersion.V1 ↔
      ¬ ∃ b t, s = b ++ '.' :: t ∧ '.' ∉ b ∧ b.length = 22) ∧
    (inferVersion s true).1 = (inferVersion s false).1 := by
  rw [← find_first_of_eq_some_iff s '.' 22, inferVersion_fst]
  refine ⟨?_, ?_, inferVersion_fst_irrel s true⟩
  · simp only [BASE_LENGTH, BASE_LENGTH_V2]
    split_ifs with h1 h2 <;> simp_all
  · simp only [BASE_LENGTH, BASE_LENGTH_V2]
    split_ifs with h1 h2 <;> simp_all

/-- C12: for every input string `x`, clock reading, entropy and spin parameters with
`totalBits ≤ 64`, `spin(x, params)` has extension 0 and base `x + "." + s`, where `s` is one
unsigned 32-bit decimal segment when `totalBits ≤ 32` and two such segments `hi.lo` when
`totalBits > 32`, and the combined value (`s`, resp. `hi*2^32 + lo`) is at most
`2^totalBits - 1`. -/
theorem spin_segments (validateDuringCreation : Bool) (ticks : Int) (rand : Nat → Nat)
    (x : List Char) (parameters : SpinParameters) (htb : parameters.totalBits ≤ 64) :
    (spin validateDuringCreation ticks rand x parameters).1.extension = 0 ∧
    (parameters.totalBits ≤ 32 → ∃ v : Nat, v < 2 ^ 32 ∧ v ≤ 2 ^ parameters.totalBits - 1 ∧
      (spin validateDuringCreation ticks rand x parameters).1.baseVector
        = x ++ '.' :: decimal v) ∧
    (32 < parameters.totalBits → ∃ hi lo : Nat, hi < 2 ^ 32 ∧ lo < 2 ^ 32 ∧
      hi * 2 ^ 32 + lo ≤ 2 ^ parameters.totalBits - 1 ∧
      (spin validateDuringCreation ticks rand x parameters).1.baseVector
        = x ++ '.' :: (decimal hi ++ '.' :: decimal lo)) := by
  have hbase : (spin validateDuringCreation ticks rand x parameters).1.baseVector
      = x ++ '.' :: spinSegment ticks rand parameters := rfl
  have hmod : foldEntropy ticks parameters.ticksBitsToDrop (entropyOf rand parameters)
      % 2 ^ parameters.totalBits < 2 ^ parameters.totalBits :=
    Nat.mod_lt _ (Nat.pos_pow_of_pos _ (by norm_num))
  have h64 : 2 ^ parameters.totalBits ≤ 2 ^ 64 := Nat.pow_le_pow_right (by norm_num) htb
  rw [hbase, spinSegment_eq ticks rand parameters htb]
  generalize foldEntropy ticks parameters.ticksBitsToDrop (entropyOf rand parameters)
    % 2 ^ parameters.totalBits = value at hmod
  refine ⟨rfl, ?_, ?_⟩
  · intro hle
    have h32 : 2 ^ parameters.totalBits ≤ 2 ^ 32 := Nat.pow_le_pow_right (by norm_num) hle
    rw [if_neg (by omega)]
    refine ⟨value % 4294967296, ?_, ?_, rfl⟩
    · norm_num
      omega
    · have : value % 4294967296 ≤ value := Nat.mod_le _ _
      omega
  · intro hgt
    rw [if_pos hgt]
    refine ⟨value / 4294967296 % 4294967296, value % 4294967296, ?_, ?_, ?_, rfl⟩
    · norm_num
      omega
    · norm_num
      omega
    · norm_num at h64 ⊢
      omega

/-- C12, witness: 40 bits give two segments. -/
theorem spin_segments_witness :
    (⟨2, 24, 40⟩ : SpinParameters).totalBits ≤ 64 ∧
    ∃ hi lo : Nat, hi < 2 ^ 32 ∧ lo < 2 ^ 32 ∧ hi * 2 ^ 32 + lo ≤ 2 ^ 40 - 1 ∧
      (spin false 16000000000000000 (fun i => 77 + i) (String.toList "ABCDEFGHIJKLMNOP.1")
        ⟨2, 24, 40⟩).1.baseVector
        = String.toList "ABCDEFGHIJKLMNOP.1" ++ '.' :: (decimal hi ++ '.' :: decimal lo) :=
  ⟨by decide,
    (spin_segments false 16000000000000000 (fun i => 77 + i)
      (String.toList "ABCDEFGHIJKLMNOP.1") ⟨2, 24, 40⟩ (by decide)).2.2 (by decide)⟩

/-- C13: `a.equals(b)` is true if and only if base and extension of `a` and `b` are the same
(the version is not compared); so `equals` is reflexive and symmetric, and two vectors with the
same base and different extensions are not equal. -/
theorem equals_spec (a b : CorrelationVector) :
    (a.equals b = true ↔ a.baseVector = b.baseVector ∧ a.extension = b.extension) ∧
    a.equals a = true ∧ a.equals b = b.equals a ∧
    (a.baseVector = b.baseVector → a.extension ≠ b.extension → a.equals b = false) := by
  refine ⟨equals_iff a b, (equals_iff a a).mpr ⟨rfl, rfl⟩, ?_, ?_⟩
  · rw [Bool.eq_iff_iff, equals_iff, equals_iff]
    exact ⟨fun h => ⟨h.1.symm, h.2.symm⟩, fun h => ⟨h.1.symm, h.2.symm⟩⟩
  · intro _ he
    rw [← Bool.not_eq_true, equals_iff]
    exact fun h => he h.2

/-- C13, witness: `ABCDEFGHIJKLMNOP.1` as V1 and as V2 are equal, `ABCDEFGHIJKLMNOP.1` and
`ABCDEFGHIJKLMNOP.2` are not. -/
theorem equals_spec_witness :
    (⟨String.toList "ABCDEFGHIJKLMNOP", 1, CorrelationVectorVersion.V1⟩ :
      CorrelationVector).equals
      ⟨String.toList "ABCDEFGHIJKLMNOP", 1, CorrelationVectorVersion.V2⟩ = true ∧
    (⟨String.toList "ABCDEFGHIJKLMNOP", 1, CorrelationVectorVersion.V1⟩ :
      CorrelationVector).equals
      ⟨String.toList "ABCDEFGHIJKLMNOP", 2, CorrelationVectorVersion.V1⟩ = false :=
  ⟨by decide,
    (equals_spec ⟨String.toList "ABCDEFGHIJKLMNOP", 1, CorrelationVectorVersion.V1⟩
      ⟨String.toList "ABCDEFGHIJKLMNOP", 2, CorrelationVectorVersion.V1⟩).2.2.2 rfl
      (by decide)⟩

/-- C14: `parse` returns the brand-new default vector (version V1, extension 0, base taken from
the unique-id source) for every input that is empty or has no `.`, and for every input whose
text after the last `.` is not a clean non-negative integer (non-numeric, empty, negative, with
trailing characters, or out of the range of `int`). -/
theorem parse_falls_back (guid : Guid) (s : List Char)
    (h : s = [] ∨ '.' ∉ s ∨ ∃ b t, s = b ++ '.' :: t ∧ '.' ∉ t ∧ notCleanInteger t) :
    parse guid s = CorrelationVector.new guid ∧
    (CorrelationVector.new guid).getVersion = CorrelationVectorVersion.V1 ∧
    (CorrelationVector.new guid).extension = 0 ∧
    (CorrelationVector.new guid).baseVector = getUniqueValue guid CorrelationVectorVersion.V1 := by
  refine ⟨?_, rfl, rfl, rfl⟩
  rcases h with rfl | hno | ⟨b, t, rfl, ht, hbad⟩
  · rfl
  · exact parse_eq_new_of_no_dot guid s hno
  · exact parse_eq_new guid b t ht (stoi_not_accepted t hbad)

/-- C14, witness: `parse("")`. -/
theorem parse_falls_back_witness :
    parse ⟨fun _ => String.toList "FRESHFRESHFRESH0"⟩ [] =
      ⟨String.toList "FRESHFRESHFRESH0", 0, CorrelationVectorVersion.V1⟩ :=
  (parse_falls_back ⟨fun _ => String.toList "FRESHFRESHFRESH0"⟩ [] (Or.inl rfl)).1

/-- C15: for every string `s` whose first `.` is at index `BASE_LENGTH(v)` (16 for V1, 22 for
V2), `extend(s)` and `spin(s, params)` have version `v`, and so has `parse(s)` whenever the text
after the last `.` of `s` is converted as a whole to a non-negative value; the single-extension
forms `b16.e` and `b22.e` are included. -/
theorem version_by_base_length (guid : Guid) (validateDuringCreation : Bool) (ticks : Int)
    (rand : Nat → Nat) (parameters : SpinParameters) (version : CorrelationVectorVersion)
    (s b t : List Char) (hs : s = b ++ '.' :: t) (hb : '.' ∉ b)
    (hlen : b.length = baseLength version) :
    (extend validateDuringCreation s).1.getVersion = version ∧
    (spin validateDuringCreation ticks rand s parameters).1.getVersion = version ∧
    (∀ (base last : List Char) (extension : Int), s = base ++ '.' :: last → '.' ∉ last →
      stoi last = StoiResult.value extension last.length → 0 ≤ extension →
      (parse guid s).getVersion = version) := by
  have hv := inferVersion_of_first_dot s b t version
  refine ⟨hv validateDuringCreation hs hb hlen, hv validateDuringCreation hs hb hlen, ?_⟩
  intro base last extension hs2 hlast hstoi h0
  have hne : base ≠ [] := by
    rintro rfl
    rw [hs] at hs2
    cases b with
    | nil => cases version <;> exact absurd hlen (by decide)
    | cons x xs =>
      simp only [List.cons_append, List.nil_append, List.cons.injEq] at hs2
      exact hb (hs2.1 ▸ List.mem_cons_self x xs)
  have hp := parse_append guid base last extension hne hlast hstoi h0
  rw [← hs2] at hp
  rw [hp]
  exact hv false hs hb hlen

/-- C15, witness: the single-extension form `ABCDEFGHIJKLMNOPQRSTUV.7` has version V2. -/
theorem version_by_base_length_witness :
    (parse ⟨fun _ => []⟩ (String.toList "ABCDEFGHIJKLMNOPQRSTUV.7")).getVersion
      = CorrelationVectorVersion.V2 :=
  (version_by_base_length ⟨fun _ => []⟩ true 0 (fun _ => 0) ⟨0, 0, 0⟩
    CorrelationVectorVersion.V2 (String.toList "ABCDEFGHIJKLMNOPQRSTUV.7")
    (String.toList "ABCDEFGHIJKLMNOPQRSTUV") (String.toList "7") rfl (by decide)
    (by decide)).2.2 (String.toList "ABCDEFGHIJKLMNOPQRSTUV") (String.toList "7") 7 rfl
    (by decide) (by decide) (by decide)

/-- C16, counterexample: `parse` of `ABCDEFGHIJKLMNOPQRSTUV.1` has base
`ABCDEFGHIJKLMNOPQRSTUV` and version V2, while `inferVersion` of that base portion is V1. -/
theorem parse_version_counterexample :
    (parse ⟨fun _ => []⟩ (String.toList "ABCDEFGHIJKLMNOPQRSTUV.1")).baseVector
      = String.toList "ABCDEFGHIJKLMNOPQRSTUV" ∧
    (parse ⟨fun _ => []⟩ (String.toList "ABCDEFGHIJKLMNOPQRSTUV.1")).getVersion
      = CorrelationVectorVersion.V2 ∧
    (inferVersion (String.toList "ABCDEFGHIJKLMNOPQRSTUV") false).1
      = CorrelationVectorVersion.V1 := by
  decide

/-- C16, amended: for every input `s` that `parse` accepts (last `.` at index `p > 0`, the text
after it converted as a whole to a non-negative `int`), `parse(s)` is the vector whose base is
`s[0..p)`, whose extension is that integer, and whose version is the version inferred from the
whole input, `inferVersion(s, false)`; that is the version inferred from the base portion
whenever the base portion contains a `.`. -/
theorem parse_accepts (guid : Guid) (b t : List Char) (extension : Int) (hb : b ≠ [])
    (ht : '.' ∉ t) (hstoi : stoi t = StoiResult.value extension t.length)
    (h0 : 0 ≤ extension) :
    parse guid (b ++ '.' :: t) = ⟨b, extension, (inferVersion (b ++ '.' :: t) false).1⟩ ∧
    ('.' ∈ b → (inferVersion (b ++ '.' :: t) false).1 = (inferVersion b false).1) :=
  ⟨parse_append guid b t extension hb ht hstoi h0, inferVersion_append_of_mem b _⟩

/-- C16, witness: `ABCDEFGHIJKLMNOPQRSTUV.3.1` is parsed to base `ABCDEFGHIJKLMNOPQRSTUV.3`,
extension 1. -/
theorem parse_accepts_witness :
    parse ⟨fun _ => []⟩ (String.toList "ABCDEFGHIJKLMNOPQRSTUV.3" ++ '.' :: String.toList "1") =
      ⟨String.toList "ABCDEFGHIJKLMNOPQRSTUV.3", 1,
        (inferVersion (String.toList "ABCDEFGHIJKLMNOPQRSTUV.3" ++ '.' :: String.toList "1")
          false).1⟩ :=
  (parse_accepts ⟨fun _ => []⟩ (String.toList "ABCDEFGHIJKLMNOPQRSTUV.3") (String.toList "1") 1
    (by decide) (by decide) (by decide) (by decide)).1

/-- C17: when `k` threads each call `increment` once on one shared vector with extension
`e ≥ 0`, and `k` is small enough to reach neither ceiling (`e + k ≤ INT_MAX` and `base.(e+k)`
within the length budget), then under every interleaving of their atomic steps, spurious
failures of the compare-and-swap included: once all calls have returned, the `k` returned values
are pairwise distinct and are `base.(e+1) … base.(e+k)` in some order, and the counter is
`e + k`; the calls can always be run to completion; and every atomic step leaves the counter as
it is or advances it by exactly 1. -/
theorem concurrent_increment (cv : CorrelationVector) (k : Nat) (schedule : List (Nat × Bool))
    (h0 : 0 ≤ cv.extension) (hk : cv.extension + k ≤ INT_MAX)
    (hsize : cv.baseVector.length + 1 + digitCount (cv.extension + k)
      ≤ maxVectorLength cv.getVersion) :
    (((SharedVector.init cv k).run schedule).allReturned = true →
      ((SharedVector.init cv k).run schedule).returnedValues.Perm
        ((List.range k).map
          (fun (i : Nat) => cv.baseVector ++ '.' :: to_string (cv.extension + (i : Int) + 1))) ∧
      ((SharedVector.init cv k).run schedule).returnedValues.Nodup ∧
      ((SharedVector.init cv k).run schedule).vector.extension = cv.extension + k) ∧
    (∃ rest, ((SharedVector.init cv k).run (schedule ++ rest)).allReturned = true) ∧
    (∀ i spurious,
      (((SharedVector.init cv k).run schedule).step i spurious).vector.extension
        = ((SharedVector.init cv k).run schedule).vector.extension ∨
      (((SharedVector.init cv k).run schedule).step i spurious).vector.extension
        = ((SharedVector.init cv k).run schedule).vector.extension + 1) := by
  have hinv := run_reachedFrom cv k _ schedule h0 hk hsize (init_reachedFrom cv k)
  refine ⟨?_, ?_, fun i spurious => step_extension _ i spurious⟩
  · intro hall
    obtain ⟨hperm, hext⟩ := reachedFrom_allReturned cv k _ hinv hall
    exact ⟨hperm, hperm.nodup_iff.mpr (nodup_values cv k h0), hext⟩
  · obtain ⟨rest, hrest⟩ := exists_completion cv k _ _ h0 hk hsize hinv rfl
    exact ⟨rest, by rw [run_append]; exact hrest⟩

/-- C17, witness: two threads on `ABCDEFGHIJKLMNOP.0`; both load 0, the first stores 1, the
compare-and-swap of the second fails, it loads 1 and stores 2. -/
theorem concurrent_increment_witness :
    ((SharedVector.init ⟨String.toList "ABCDEFGHIJKLMNOP", 0, CorrelationVectorVersion.V1⟩ 2).run
      [(0, false), (1, false), (0, false), (1, false), (1, false), (1, false)]).allReturned
        = true ∧
    ((SharedVector.init ⟨String.toList "ABCDEFGHIJKLMNOP", 0, CorrelationVectorVersion.V1⟩ 2).run
      [(0, false), (1, false), (0, false), (1, false), (1, false), (1, false)]).returnedValues
      = [String.toList "ABCDEFGHIJKLMNOP.1", String.toList "ABCDEFGHIJKLMNOP.2"] ∧
    ((SharedVector.init ⟨String.toList "ABCDEFGHIJKLMNOP", 0, CorrelationVectorVersion.V1⟩ 2).run
      [(0, false), (1, false), (0, false), (1, false), (1, false), (1, false)]).returnedValues.Nodup :=
  ⟨by decide, by decide,
    ((concurrent_increment ⟨String.toList "ABCDEFGHIJKLMNOP", 0, CorrelationVectorVersion.V1⟩ 2
      [(0, false), (1, false), (0, false), (1, false), (1, false), (1, false)] (by decide)
      (by decide) (by decide)).1 (by decide)).2.1⟩

/-- C19: for all vectors `a`, `b` with non-negative extensions, `a.equals(b)` holds if and only
if `a.getValue() == b.getValue()`; two vectors that differ in base or in extension never have
the same value. -/
theorem getValue_injective (a b : CorrelationVector) (ha : 0 ≤ a.extension)
    (hb : 0 ≤ b.extension) :
    (a.equals b = true ↔ a.getValue = b.getValue) ∧
    (a.baseVector ≠ b.baseVector ∨ a.extension ≠ b.extension → a.getValue ≠ b.getValue) := by
  have hinj : a.getValue = b.getValue →
      a.baseVector = b.baseVector ∧ a.extension = b.extension := by
    intro h
    obtain ⟨h1, h2⟩ := append_dot_inj _ _ _ _ (dot_not_mem_to_string _ ha)
      (dot_not_mem_to_string _ hb) h
    exact ⟨h1, to_string_inj _ _ ha hb h2⟩
  refine ⟨?_, ?_⟩
  · rw [equals_iff]
    constructor
    · rintro ⟨h1, h2⟩
      simp only [CorrelationVector.getValue, h1, h2]
    · exact hinj
  · intro hne hval
    obtain ⟨h1, h2⟩ := hinj hval
    rcases hne with h | h
    · exact h h1
    · exact h h2

/-- C19, witness: base `ABCDEFGHIJKLMNOP.1` with extension 2 and base `ABCDEFGHIJKLMNOP` with
extension 12 have different values. -/
theorem getValue_injective_witness :
    (⟨String.toList "ABCDEFGHIJKLMNOP.1", 2, CorrelationVectorVersion.V1⟩ :
      CorrelationVector).getValue ≠
    (⟨String.toList "ABCDEFGHIJKLMNOP", 12, CorrelationVectorVersion.V1⟩ :
      CorrelationVector).getValue :=
  (getValue_injective ⟨String.toList "ABCDEFGHIJKLMNOP.1", 2, CorrelationVectorVersion.V1⟩
    ⟨String.toList "ABCDEFGHIJKLMNOP", 12, CorrelationVectorVersion.V1⟩ (by decide)
    (by decide)).2 (Or.inl (by decide))

/-- C20: for every string `x` that contains a `.`, `parse(extend(x).getValue())` has base `x`,
extension 0 and the version of `extend(x)`, hence it `equals` `extend(x)`. -/
theorem parse_extend (guid : Guid) (validateDuringCreation : Bool) (x : List Char)
    (hx : '.' ∈ x) :
    (parse guid (extend validateDuringCreation x).1.getValue).baseVector = x ∧
    (parse guid (extend validateDuringCreation x).1.getValue).extension = 0 ∧
    (parse guid (extend validateDuringCreation x).1.getValue).getVersion
      = (extend validateDuringCreation x).1.getVersion ∧
    (parse guid (extend validateDuringCreation x).1.getValue) = (extend validateDuringCreation x).1 ∧
    (parse guid (extend validateDuringCreation x).1.getValue).equals
      (extend validateDuringCreation x).1 = true := by
  have hne : x ≠ [] := List.ne_nil_of_mem hx
  have hval : (extend validateDuringCreation x).1.getValue = x ++ '.' :: to_string 0 := rfl
  have hp := parse_append guid x (to_string 0) 0 hne (dot_not_mem_to_string 0 (le_refl _))
    (stoi_to_string 0 (le_refl _) (by decide)) (le_refl _)
  have hv : (inferVersion (x ++ '.' :: to_string 0) false).1
      = (inferVersion x validateDuringCreation).1 := by
    rw [inferVersion_append_of_mem x _ hx, inferVersion_fst_irrel x validateDuringCreation]
  have hext : (extend validateDuringCreation x).1
      = ⟨x, 0, (inferVersion x validateDuringCreation).1⟩ := rfl
  rw [hval, hp, hv, hext]
  exact ⟨rfl, rfl, rfl, rfl, (equals_iff _ _).mpr ⟨rfl, rfl⟩⟩

/-- C20, witness: `x = ABCDEFGHIJKLMNOP.4`. -/
theorem parse_extend_witness :
    '.' ∈ String.toList "ABCDEFGHIJKLMNOP.4" ∧
    parse ⟨fun _ => []⟩ (extend true (String.toList "ABCDEFGHIJKLMNOP.4")).1.getValue
      = (extend true (String.toList "ABCDEFGHIJKLMNOP.4")).1 :=
  ⟨by decide,
    (parse_extend ⟨fun _ => []⟩ true (String.toList "ABCDEFGHIJKLMNOP.4") (by decide)).2.2.2.1⟩

end Microsoft
